import Mathlib

/-!
Shallow embedding of the composition expression engine of the
character_editor repository.

Sources embedded:
- src/utils/parser.ts: parseLayerString, applyLayerStrings,
  parseDefaultComposition
- src/hooks/useCharacterState.ts: calculateLayerStates (with its inner
  applyCompositionRecursive) and applyExpression
- src/components/SimpleCharacterEditor.tsx: generateExpression

JavaScript Record<string, boolean> values are modelled as total functions
String → Bool (the code only ever reads entries through boolean coercion,
so an absent key is indistinguishable from false).  JavaScript string
methods (split, trim, join, template literals) are modelled on the
character lists underlying Lean strings.  The unbounded recursion of
applyCompositionRecursive is modelled with an explicit fuel parameter:
a result of none means the recursion exceeded every finite depth.
-/

/-- The three operator characters of the mini-language, as matched by the
regular expression [+\->] in parseLayerString. -/
def isOpChar (c : Char) : Bool := c = '+' || c = '-' || c = '>'

/-- Result record of parseLayerString: { group, name, op }. -/
structure ParsedLayerString where
  group : String
  name : String
  op : Char
deriving DecidableEq

/-- layerStr.match(/[+\->]/): locate the first operator character of the
token, splitting it into the characters before, the operator, and the
characters after. -/
def findOp : List Char → Option (List Char × Char × List Char)
  | [] => none
  | c :: cs =>
    if isOpChar c then some ([], c, cs)
    else
      match findOp cs with
      | some (b, o, a) => some (c :: b, o, a)
      | none => none

/-- layerStr.endsWith('-'), expressed on the character list. -/
def endsWithDash (s : String) : Bool := s.data.getLast? == some '-'

/-- parseLayerString from src/utils/parser.ts. -/
def parseLayerString (layerStr : String) : ParsedLayerString :=
  match findOp layerStr.data with
  | some (b, o, a) => ⟨String.mk b, String.mk a, o⟩
  | none =>
    if endsWithDash layerStr then ⟨String.mk layerStr.data.dropLast, "", '-'⟩
    else ⟨"", "", '+'⟩

/-- An activation map (Record<string, boolean>); absent ids read as false. -/
def LayerState := String → Bool

/-- The empty activation map {}. -/
def emptyState : LayerState := fun _ => false

/-- states[id] = b. -/
def setState (st : LayerState) (id : String) (b : Bool) : LayerState :=
  fun k => if k = id then b else st k

/-- One catalog layer (the order and path fields play no role in
resolution or synthesis and are omitted). -/
structure LayerInfo where
  group : String
  name : String
  id : String
deriving DecidableEq

/-- The template literal group + "/" + name used to form layer ids. -/
def mkId (group name : String) : String := group ++ "/" ++ name

/-- The body of the forEach in applyLayerStrings, for one parsed token:
skip tokens with an empty group, clear the group for a bare trailing dash,
enable or disable a single id for + and -, and set every layer of the
group for >. -/
def applyParsed (layers : List LayerInfo) (p : ParsedLayerString)
    (st : LayerState) : LayerState :=
  if p.group = "" then st
  else if p.op = '-' && p.name = "" then
    (layers.filter (fun l => l.group == p.group)).foldl
      (fun st l => setState st l.id false) st
  else if p.op = '+' then setState st (mkId p.group p.name) true
  else if p.op = '-' then setState st (mkId p.group p.name) false
  else if p.op = '>' then
    (layers.filter (fun l => l.group == p.group)).foldl
      (fun st l => setState st l.id (l.name == p.name)) st
  else st

/-- applyLayerStrings from src/utils/parser.ts (parameter order as in the
source: token list, states, catalog layers). -/
def applyLayerStrings (layerStrings : List String) (states : LayerState)
    (layers : List LayerInfo) : LayerState :=
  layerStrings.foldl (fun st s => applyParsed layers (parseLayerString s) st) states

/-- defaultComposition: { presets, layers }. -/
structure DefaultComposition where
  presets : List String
  layers : List String
deriving DecidableEq

/-- The per-character data consumed by the engine. -/
structure CharacterData where
  layers : List LayerInfo
  compositions : List (String × List String)
  defaultComposition : DefaultComposition
deriving DecidableEq

/-- characterData.compositions[name]: object-key lookup of a macro. -/
def lookupComp (cd : CharacterData) (name : String) : Option (List String) :=
  (cd.compositions.find? (fun e => e.1 == name)).map (fun e => e.2)

/-- One level of applyCompositionRecursive: walk the parts of a macro in
order; a part that is a registry key recurses through expandKey, any
other part is applied as an atomic-op token. -/
def expandPartsAux (cd : CharacterData)
    (expandKey : List String → LayerState → Option LayerState) :
    List String → LayerState → Option LayerState
  | [], st => some st
  | p :: ps, st =>
    match lookupComp cd p with
    | some sub =>
      match expandKey sub st with
      | none => none
      | some st2 => expandPartsAux cd expandKey ps st2
    | none => expandPartsAux cd expandKey ps (applyParsed cd.layers (parseLayerString p) st)

/-- applyCompositionRecursive on the parts of one macro, with fuel
bounding the recursion depth of the source (which has no bound of its
own): at depth 0 any further recursion into a registry key yields none. -/
def expandParts (cd : CharacterData) : Nat → List String → LayerState → Option LayerState
  | 0 => expandPartsAux cd (fun _ _ => none)
  | f + 1 => expandPartsAux cd (expandParts cd f)

/-- applyCompositionRecursive applied to the list of active composition
names: names that are not registry keys are skipped. -/
def expandTop (cd : CharacterData) (fuel : Nat) : List String → LayerState → Option LayerState
  | [], st => some st
  | n :: ns, st =>
    match lookupComp cd n with
    | none => expandTop cd fuel ns st
    | some parts =>
      match expandParts cd fuel parts st with
      | none => none
      | some st2 => expandTop cd fuel ns st2

/-- Steps 1 and 2 of calculateLayerStates: the default baseline ops, then
the recursive expansion of the active composition names. -/
def presetStates (cd : CharacterData) (fuel : Nat)
    (activeCompositions : List String) : Option LayerState :=
  expandTop cd fuel activeCompositions
    (applyLayerStrings cd.defaultComposition.layers emptyState cd.layers)

/-- Object.assign(states, manualOverrides): write every override entry, in
order, over the computed states. -/
def applyOverrides (ov : List (String × Bool)) (st : LayerState) : LayerState :=
  ov.foldl (fun st e => setState st e.1 e.2) st

/-- calculateLayerStates from useCharacterState: baseline, then active
compositions, then manual overrides (none when the recursive expansion
does not terminate at any finite depth). -/
def calculateLayerStates (cd : CharacterData) (fuel : Nat)
    (activeCompositions : List String)
    (manualOverrides : List (String × Bool)) : Option LayerState :=
  (presetStates cd fuel activeCompositions).map (applyOverrides manualOverrides)

/-- str.split(sep) on the character list ("".split(sep) gives [""]):
helper extending the first chunk. -/
def consChunk (c : Char) : List (List Char) → List (List Char)
  | [] => [[c]]
  | h :: t => (c :: h) :: t

/-- str.split(sep) on the character list. -/
def splitChars (sep : Char) : List Char → List (List Char)
  | [] => [[]]
  | c :: cs =>
    if c = sep then [] :: splitChars sep cs
    else consChunk c (splitChars sep cs)

/-- str.split(sep) as a String operation. -/
def jsSplit (s : String) (sep : Char) : List String :=
  (splitChars sep s.data).map String.mk

/-- str.trim() on the character list. -/
def trimChars (l : List Char) : List Char :=
  ((l.dropWhile Char.isWhitespace).reverse.dropWhile Char.isWhitespace).reverse

/-- str.trim() as a String operation. -/
def jsTrim (s : String) : String := String.mk (trimChars s.data)

/-- array.join(',') from JavaScript. -/
def joinComma : List String → String
  | [] => ""
  | [s] => s
  | s :: rest => s ++ "," ++ joinComma rest

/-- parseDefaultComposition from src/utils/parser.ts.  Note that
text.trim().split(':', 2) keeps only the first two colon-separated
fields: anything after a second colon is discarded.  The single forEach
of the source that pushes each non-empty head item into one of two
arrays is rendered as two order-preserving filters. -/
def parseDefaultComposition (text : String) : DefaultComposition :=
  let fields := jsSplit (jsTrim text) ':'
  let part1 := fields.getD 0 ""
  let part2 := fields.getD 1 ""
  let items := (jsSplit part1 ',').map jsTrim
  let part1LayerStrings :=
    if part1 = "" then []
    else items.filter (fun i => i != "" && (parseLayerString i).group != "")
  let allPresetNames :=
    if part1 = "" then []
    else items.filter (fun i => i != "" && (parseLayerString i).group == "")
  let part2LayerStrings :=
    if part2 = "" then []
    else ((jsSplit part2 ',').map jsTrim).filter (fun i => i != "")
  ⟨allPresetNames, part2LayerStrings ++ part1LayerStrings⟩

/-- The two pieces of user state replaced by applyExpression. -/
structure EditorState where
  activeCompositions : List String
  manualOverrides : List (String × Bool)
deriving DecidableEq

/-- Set<string>.add: insertion-ordered, ignoring duplicates. -/
def insertActive (l : List String) (s : String) : List String :=
  if l.contains s then l else l ++ [s]

/-- The body of the parts.forEach of applyExpression, for one trimmed
non-empty part: registry keys are collected as active compositions, and
every other part is parsed as a manual layer control. -/
def exprStep (cd : CharacterData) (acc : EditorState) (part : String) : EditorState :=
  if (lookupComp cd part).isSome then
    { acc with activeCompositions := insertActive acc.activeCompositions part }
  else
    let p := parseLayerString part
    if p.group = "" then acc
    else if p.op = '-' && p.name = "" then
      let ov := (cd.layers.filter (fun l => l.group == p.group)).map (fun l => (l.id, false))
      { acc with manualOverrides := acc.manualOverrides ++ ov }
    else if p.op = '>' then
      let ov := (cd.layers.filter (fun l => l.group == p.group)).map
        (fun l => (l.id, l.name == p.name))
      { acc with manualOverrides := acc.manualOverrides ++ ov }
    else if p.op = '+' then
      { acc with manualOverrides := acc.manualOverrides ++ [(mkId p.group p.name, true)] }
    else if p.op = '-' then
      { acc with manualOverrides := acc.manualOverrides ++ [(mkId p.group p.name, false)] }
    else acc

/-- expression.split(',').map(trim).filter(Boolean): the trimmed
non-empty comma-separated parts of an expression text. -/
def partsOf (expression : String) : List String :=
  ((jsSplit expression ',').map jsTrim).filter (fun p => p != "")

/-- applyExpression from useCharacterState: split the expression on
commas, trim, drop empties, then classify each part.  Both pieces of
user state are rebuilt from scratch; the previous state is never read
(the baseStates computation of the source is dead code, reproduced
here as an unused binding). -/
def applyExpression (cd : CharacterData) (expression : String)
    (_prev : EditorState) : EditorState :=
  let parts := partsOf expression
  let _baseStates := applyLayerStrings cd.defaultComposition.layers emptyState cd.layers
  parts.foldl (exprStep cd) ⟨[], []⟩

/-- The manual-override part of parsing an expression text. -/
def parseOverrides (cd : CharacterData) (expression : String) : List (String × Bool) :=
  (applyExpression cd expression ⟨[], []⟩).manualOverrides

/-- characterData.layers.find(l => l.id === layerId). -/
def findLayer (cd : CharacterData) (id : String) : Option LayerInfo :=
  cd.layers.find? (fun l => l.id == id)

/-- requiredOverrides.hasOwnProperty(id): the final and preset-only values
differ at id and a catalog layer carries id. -/
def hasRequired (cd : CharacterData) (current presetOnly : LayerState)
    (id : String) : Bool :=
  current id != presetOnly id && (findLayer cd id).isSome

/-- Insertion-ordered deduplication (Set<string> insertion semantics). -/
def dedupStr (seen : List String) : List String → List String
  | [] => []
  | x :: xs => if seen.contains x then dedupStr seen xs else x :: dedupStr (x :: seen) xs

/-- The distinct groups of the catalog layers whose id requires an
override, each taken from the first catalog layer carrying its id.  The
source iterates the keys of the two state objects and adds the group of
the first catalog layer found for each differing id; this enumerates the
same set in catalog order, and the final lexicographic sort makes the
enumeration order irrelevant to the emitted text. -/
def overriddenGroups (cd : CharacterData) (current presetOnly : LayerState) : List String :=
  dedupStr []
    ((cd.layers.filter (fun l =>
        decide (findLayer cd l.id = some l) &&
        hasRequired cd current presetOnly l.id)).map (fun l => l.group))

/-- The override tokens emitted for one overridden group: a bare
group-dash when nothing in the group is on, the exclusive form when
exactly one layer is on, and per-layer enable/disable tokens restricted
to the diff ids otherwise. -/
def groupTokens (cd : CharacterData) (current presetOnly : LayerState)
    (g : String) : List String :=
  match cd.layers.filter (fun l => l.group == g && current l.id) with
  | [] => [g ++ "-"]
  | [activeLayer] => [activeLayer.group ++ ">" ++ activeLayer.name]
  | _ =>
    (cd.layers.filter (fun l => l.group == g &&
        hasRequired cd current presetOnly l.id)).map
      (fun l => l.group ++ (if current l.id then "+" else "-") ++ l.name)

/-- All override tokens of generateExpression, in group order. -/
def overrideExpressions (cd : CharacterData) (current presetOnly : LayerState) : List String :=
  (overriddenGroups cd current presetOnly).flatMap (groupTokens cd current presetOnly)

/-- Insertion sort with JavaScript's default string comparison
(lexicographic by character values). -/
def insertSorted (s : String) : List String → List String
  | [] => [s]
  | t :: ts => if s < t then s :: t :: ts else t :: insertSorted s ts

/-- overrideExpressions.sort(). -/
def sortStrings (l : List String) : List String := l.foldr insertSorted []

/-- The text assembly at the end of generateExpression. -/
def assembleExpression (userPresetOrder : List String) (tokens : List String) : String :=
  let expression := joinComma userPresetOrder
  let expression :=
    if tokens.length > 0 then
      expression ++ (if expression != "" then "," else "") ++ joinComma (sortStrings tokens)
    else expression
  if expression = "" then "Default" else expression

/-- generateExpression from SimpleCharacterEditor: recompute the
preset-only states, diff the final states against them, and emit the
canonical expression text (none when the preset-only resolution does not
terminate at any finite depth). -/
def generateExpression (cd : CharacterData) (fuel : Nat)
    (userPresetOrder : List String) (currentStates : LayerState) : Option String :=
  (presetStates cd fuel userPresetOrder).map (fun presetOnly =>
    assembleExpression userPresetOrder (overrideExpressions cd currentStates presetOnly))

/-- Option-valued read of an activation map at one id. -/
def evalState (o : Option LayerState) (id : String) : Option Bool :=
  match o with
  | none => none
  | some st => some (st id)

/-- Synthesize the expression for (finalMap, activeMacroNames), re-parse
it, and resolve with the same catalog, baseline and active macro names,
using the parsed manual overrides. -/
def roundTrip (cd : CharacterData) (fuel : Nat) (names : List String)
    (finalMap : LayerState) : Option LayerState :=
  match generateExpression cd fuel names finalMap with
  | none => none
  | some e => calculateLayerStates cd fuel names (parseOverrides cd e)

/-! ## Basic lemmas about the embedding -/

theorem setState_eval (st : LayerState) (id : String) (b : Bool) (k : String) :
    setState st id b k = if k = id then b else st k := rfl

/-- Evaluating a fold of per-layer writes: the last layer in the list
carrying the id wins; ids never written keep their old value. -/
theorem foldl_setState_eval (f : LayerInfo → Bool) (lst : List LayerInfo)
    (st : LayerState) (k : String) :
    (lst.foldl (fun st l => setState st l.id (f l)) st) k =
      match lst.reverse.find? (fun l => l.id == k) with
      | some l => f l
      | none => st k := by
  induction lst generalizing st with
  | nil => rfl
  | cons l rest ih =>
    simp only [List.foldl_cons, List.reverse_cons, List.find?_append]
    rw [ih]
    cases h : rest.reverse.find? (fun l => l.id == k) with
    | some l2 => simp
    | none =>
      simp only [Option.none_orElse]
      by_cases hk : l.id = k
      · simp [hk, setState]
      · have hne : ¬ k = l.id := fun h2 => hk h2.symm
        have hb : (l.id == k) = false := by simp [hk]
        simp [hb, setState, hne]

/-- Evaluating Object.assign-style override application: the last entry
with the key wins; keys never written keep their old value. -/
theorem applyOverrides_eval (ov : List (String × Bool)) (st : LayerState) (k : String) :
    applyOverrides ov st k =
      match ov.reverse.find? (fun e => e.1 == k) with
      | some e => e.2
      | none => st k := by
  induction ov generalizing st with
  | nil => rfl
  | cons e rest ih =>
    simp only [applyOverrides, List.foldl_cons, List.reverse_cons, List.find?_append]
    rw [show rest.foldl (fun st e => setState st e.1 e.2) (setState st e.1 e.2) =
      applyOverrides rest (setState st e.1 e.2) from rfl, ih]
    cases h : rest.reverse.find? (fun e => e.1 == k) with
    | some e2 => simp
    | none =>
      simp only [Option.none_orElse]
      by_cases hk : e.1 = k
      · simp [hk, setState]
      · have hne : ¬ k = e.1 := fun h2 => hk h2.symm
        have hb : (e.1 == k) = false := by simp [hk]
        simp [hb, setState, hne]

theorem findOp_eq_none (l : List Char) (h : ∀ c ∈ l, isOpChar c = false) :
    findOp l = none := by
  induction l with
  | nil => rfl
  | cons c cs ih =>
    have hc := h c (by simp)
    simp [findOp, hc, ih (fun d hd => h d (by simp [hd]))]

theorem findOp_append (pre : List Char) (c : Char) (suf : List Char)
    (hpre : ∀ d ∈ pre, isOpChar d = false) (hc : isOpChar c = true) :
    findOp (pre ++ c :: suf) = some (pre, c, suf) := by
  induction pre with
  | nil => simp [findOp, hc]
  | cons d ds ih =>
    have hd := hpre d (by simp)
    simp [findOp, hd, ih (fun e he => hpre e (by simp [he]))]

/-- The four operation kinds of the mini-language data model, plus the
sentinel kind for unparseable tokens. -/
inductive OpKind
  | enable
  | disable
  | exclusive
  | clearGroup
deriving DecidableEq

/-- The kind a parsed operator denotes in the callers' dispatch: '+'
enables, '>' is exclusive, and '-' clears the group when no name is given
and disables otherwise. -/
def opKindOf (op : Char) (name : String) : OpKind :=
  if op = '+' then .enable
  else if op = '>' then .exclusive
  else if name = "" then .clearGroup
  else .disable

/-- C6: parseAtomicOp finds the leftmost occurrence of '+', '-' or '>';
if one occurs at position i, the result has group = token[0:i), name =
token[i+1:], with kind Enable for '+', Exclusive for '>', and for '-'
ClearGroup when the name is empty and Disable otherwise; if no operator
occurs and the token ends with '-', the result is ClearGroup on the token
minus the trailing dash with empty name; if no operator occurs otherwise,
the result is a sentinel with empty group. -/
theorem parseLayerString_spec (pre : List Char) (c : Char) (suf : List Char) (s : String) :
    ((∀ d ∈ pre, isOpChar d = false) → isOpChar c = true →
      parseLayerString (String.mk (pre ++ c :: suf)) = ⟨String.mk pre, String.mk suf, c⟩ ∧
      opKindOf c (String.mk suf) =
        (if c = '+' then OpKind.enable else if c = '>' then OpKind.exclusive
         else if suf = [] then OpKind.clearGroup else OpKind.disable)) ∧
    ((∀ d ∈ s.data, isOpChar d = false) → endsWithDash s = true →
      parseLayerString s = ⟨String.mk s.data.dropLast, "", '-'⟩) ∧
    ((∀ d ∈ s.data, isOpChar d = false) → endsWithDash s = false →
      (parseLayerString s).group = "") := by
  refine ⟨fun hpre hc => ⟨?_, ?_⟩, fun hno hd => ?_, fun hno hd => ?_⟩
  · simp [parseLayerString, findOp_append pre c suf hpre hc]
  · have hs : (String.mk suf = "") ↔ suf = [] := by
      constructor
      · intro h; simpa using congrArg String.data h
      · intro h; rw [h]
    simp only [opKindOf, hs]
  · unfold parseLayerString
    rw [findOp_eq_none s.data hno]
    simp [hd]
  · unfold parseLayerString
    rw [findOp_eq_none s.data hno]
    simp [hd]

/-- Witness for C6 at concrete tokens. -/
theorem parseLayerString_spec_witness :
    parseLayerString "Eyes>Closed" = ⟨"Eyes", "Closed", '>'⟩ ∧
    opKindOf '>' "Closed" = OpKind.exclusive ∧
    (parseLayerString "Flower").group = "" := by
  have h := parseLayerString_spec ['E', 'y', 'e', 's'] '>'
    ['C', 'l', 'o', 's', 'e', 'd'] "Flower"
  exact ⟨(h.1 (by decide) (by decide)).1, (h.1 (by decide) (by decide)).2,
    h.2.2 (by decide) (by decide)⟩

/-- Unfolding applyParsed at an exclusive token with a non-empty group. -/
theorem applyParsed_exclusive (layers : List LayerInfo) (st : LayerState)
    (g n : String) (hg : g ≠ "") :
    applyParsed layers ⟨g, n, '>'⟩ st =
      (layers.filter (fun l => l.group == g)).foldl
        (fun st l => setState st l.id (l.name == n)) st := by
  simp [applyParsed, hg]

/-- Unfolding applyParsed at a clear-group token with a non-empty group. -/
theorem applyParsed_clearGroup (layers : List LayerInfo) (st : LayerState)
    (g : String) (hg : g ≠ "") :
    applyParsed layers ⟨g, "", '-'⟩ st =
      (layers.filter (fun l => l.group == g)).foldl
        (fun st l => setState st l.id false) st := by
  simp [applyParsed, hg]

/-- The exclusive fold writes the id of every member of the group; the
written value comes from some group member carrying the same id. -/
theorem exclusive_eval_mem (layers : List LayerInfo) (st : LayerState) (g n : String)
    (l : LayerInfo) (hl : l ∈ layers) (hgl : l.group = g) :
    ∃ l2 ∈ layers.filter (fun l => l.group == g),
      l2.id = l.id ∧
      ((layers.filter (fun l => l.group == g)).foldl
        (fun st l2 => setState st l2.id (l2.name == n)) st) l.id = (l2.name == n) := by
  have hmem : l ∈ layers.filter (fun l => l.group == g) := by
    simp [List.mem_filter, hl, hgl]
  rw [foldl_setState_eval]
  have hsome : ((layers.filter (fun l => l.group == g)).reverse.find?
      (fun l2 => l2.id == l.id)).isSome := by
    rw [List.find?_isSome]
    exact ⟨l, by simp [hmem], by simp⟩
  cases hfind : (layers.filter (fun l => l.group == g)).reverse.find?
      (fun l2 => l2.id == l.id) with
  | none => rw [hfind] at hsome; simp at hsome
  | some l2 =>
    have hml2 : l2 ∈ layers.filter (fun l => l.group == g) := by
      have := List.mem_of_find?_eq_some hfind
      simpa using this
    have hid : l2.id = l.id := by simpa using List.find?_some hfind
    exact ⟨l2, hml2, hid, rfl⟩

/-- With pairwise distinct ids inside the group, the exclusive fold maps
the id of each group member exactly to (its name matches). -/
theorem exclusive_eval (layers : List LayerInfo) (st : LayerState) (g n : String)
    (hids : ((layers.filter (fun l => l.group == g)).map LayerInfo.id).Nodup)
    (l : LayerInfo) (hl : l ∈ layers) (hgl : l.group = g) :
    ((layers.filter (fun l => l.group == g)).foldl
      (fun st l2 => setState st l2.id (l2.name == n)) st) l.id = (l.name == n) := by
  obtain ⟨l2, hml2, hid, hval⟩ := exclusive_eval_mem layers st g n l hl hgl
  have hmem : l ∈ layers.filter (fun l => l.group == g) := by
    simp [List.mem_filter, hl, hgl]
  have : l2 = l := List.inj_on_of_nodup_map hids hml2 hmem hid
  rw [hval, this]

/-- C4: Exclusive semantics: for a group g with pairwise distinct member
ids and exactly one layer of g named n, applying Exclusive(g, n) leaves
exactly one catalog layer of group g mapped to true, namely the layer of
g whose name is n, with every other layer of g mapped to false. -/
theorem exclusive_exactly_one (layers : List LayerInfo) (st : LayerState) (g n : String)
    (hg : g ≠ "")
    (hone : layers.countP (fun l => l.group == g && l.name == n) = 1)
    (hids : ((layers.filter (fun l => l.group == g)).map LayerInfo.id).Nodup) :
    layers.countP (fun l => l.group == g && applyParsed layers ⟨g, n, '>'⟩ st l.id) = 1 ∧
    ∀ l ∈ layers, l.group = g →
      (applyParsed layers ⟨g, n, '>'⟩ st l.id = true ↔ l.name = n) := by
  constructor
  · rw [List.countP_congr (q := fun l => l.group == g && l.name == n) ?_]
    · exact hone
    · intro l hl
      by_cases hgl : l.group = g
      · rw [applyParsed_exclusive layers st g n hg,
          exclusive_eval layers st g n hids l hl hgl]
      · simp [hgl]
  · intro l hl hgl
    rw [applyParsed_exclusive layers st g n hg,
      exclusive_eval layers st g n hids l hl hgl]
    simp

/-- Concrete two-layer catalog used by several witnesses. -/
def wLayers : List LayerInfo :=
  [⟨"Eyes", "Open", "Eyes/Open"⟩, ⟨"Eyes", "Closed", "Eyes/Closed"⟩]

/-- Witness for C4 at a concrete catalog, map, group and name. -/
theorem exclusive_exactly_one_witness :
    wLayers.countP (fun l => l.group == "Eyes" &&
      applyParsed wLayers ⟨"Eyes", "Closed", '>'⟩ emptyState l.id) = 1 ∧
    (applyParsed wLayers ⟨"Eyes", "Closed", '>'⟩ emptyState "Eyes/Closed" = true ↔
      ("Closed" : String) = "Closed") := by
  have h := exclusive_exactly_one wLayers emptyState "Eyes" "Closed"
    (by decide) (by decide) (by decide)
  exact ⟨h.1, h.2 ⟨"Eyes", "Closed", "Eyes/Closed"⟩ (by decide) rfl⟩

/-- Equal-step congruence for per-layer write folds. -/
theorem foldl_setState_congr (f1 f2 : LayerInfo → Bool) (lst : List LayerInfo)
    (st : LayerState) (h : ∀ l ∈ lst, f1 l = f2 l) :
    lst.foldl (fun st l => setState st l.id (f1 l)) st =
      lst.foldl (fun st l => setState st l.id (f2 l)) st := by
  induction lst generalizing st with
  | nil => rfl
  | cons l rest ih =>
    simp only [List.foldl_cons]
    rw [h l (by simp)]
    exact ih _ (fun l2 hl2 => h l2 (by simp [hl2]))

/-- C9: applying Exclusive(g, n) when no catalog layer of group g is
named n sets every layer of g to false: its effect on the map is
identical to applying ClearGroup(g), and zero layers of g end up true. -/
theorem exclusive_missing_clears (layers : List LayerInfo) (st : LayerState) (g n : String)
    (hg : g ≠ "")
    (hnone : layers.countP (fun l => l.group == g && l.name == n) = 0) :
    applyParsed layers ⟨g, n, '>'⟩ st = applyParsed layers ⟨g, "", '-'⟩ st ∧
    layers.countP (fun l => l.group == g &&
      applyParsed layers ⟨g, n, '>'⟩ st l.id) = 0 := by
  have hname : ∀ l ∈ layers.filter (fun l => l.group == g), (l.name == n) = false := by
    intro l hl
    rw [List.mem_filter] at hl
    have h2 := (List.countP_eq_zero.mp hnone) l hl.1
    simp only [Bool.and_eq_true] at h2
    by_cases hq : l.name = n
    · exact absurd ⟨hl.2, by simp [hq]⟩ h2
    · simp [hq]
  refine ⟨?_, ?_⟩
  · rw [applyParsed_exclusive layers st g n hg, applyParsed_clearGroup layers st g hg]
    exact foldl_setState_congr _ _ _ st hname
  · refine List.countP_eq_zero.mpr ?_
    intro l hl
    by_cases hgl : l.group = g
    · obtain ⟨l2, hml2, hid, hval⟩ := exclusive_eval_mem layers st g n l hl hgl
      rw [applyParsed_exclusive layers st g n hg]
      simp [hval, hname l2 hml2]
    · simp [hgl]

/-- Witness for C9 at a concrete catalog, map, group and missing name. -/
theorem exclusive_missing_clears_witness :
    applyParsed wLayers ⟨"Eyes", "Wink", '>'⟩ (setState emptyState "Eyes/Open" true) =
      applyParsed wLayers ⟨"Eyes", "", '-'⟩ (setState emptyState "Eyes/Open" true) ∧
    wLayers.countP (fun l => l.group == "Eyes" &&
      applyParsed wLayers ⟨"Eyes", "Wink", '>'⟩
        (setState emptyState "Eyes/Open" true) l.id) = 0 :=
  exclusive_missing_clears wLayers (setState emptyState "Eyes/Open" true) "Eyes" "Wink"
    (by decide) (by decide)

/-- C2: Override precedence: every id present in the manual-override map
(keys pairwise distinct, as for a JavaScript object) is assigned exactly
the override's boolean value by the resolved map, regardless of what the
baseline ops and macro expansion computed for that id. -/
theorem override_precedence (cd : CharacterData) (fuel : Nat) (names : List String)
    (ov : List (String × Bool)) (id : String) (b : Bool) (m : LayerState)
    (hnd : (ov.map Prod.fst).Nodup)
    (hmem : (id, b) ∈ ov)
    (hres : calculateLayerStates cd fuel names ov = some m) :
    m id = b := by
  unfold calculateLayerStates at hres
  cases hpre : presetStates cd fuel names with
  | none => rw [hpre] at hres; simp at hres
  | some st0 =>
    rw [hpre] at hres
    simp only [Option.map_some'] at hres
    have hm := Option.some.inj hres
    rw [← hm, applyOverrides_eval]
    cases hfind : ov.reverse.find? (fun e => e.1 == id) with
    | none =>
      exfalso
      have hsome : (ov.reverse.find? (fun e => e.1 == id)).isSome := by
        rw [List.find?_isSome]
        exact ⟨(id, b), by simp [hmem], by simp⟩
      rw [hfind] at hsome
      simp at hsome
    | some e =>
      have he1 : e.1 = id := by simpa using List.find?_some hfind
      have hme : e ∈ ov := by simpa using List.mem_of_find?_eq_some hfind
      have he : e = (id, b) := List.inj_on_of_nodup_map hnd hme hmem (by simp [he1])
      simp [he]

/-- Concrete character data used by several witnesses. -/
def cdW2 : CharacterData := ⟨wLayers, [("Blink", ["Eyes>Closed"])], ⟨[], []⟩⟩

/-- Witness for C2: the manual override wins over the exclusivity op of
the Blink macro. -/
theorem override_precedence_witness :
    evalState (calculateLayerStates cdW2 1 ["Blink"] [("Eyes/Open", true)]) "Eyes/Open" =
      some true := by
  cases hres : calculateLayerStates cdW2 1 ["Blink"] [("Eyes/Open", true)] with
  | none =>
    have hs : (calculateLayerStates cdW2 1 ["Blink"] [("Eyes/Open", true)]).isSome = true := by
      decide
    rw [hres] at hs
    simp at hs
  | some m =>
    have hv := override_precedence cdW2 1 ["Blink"] [("Eyes/Open", true)] "Eyes/Open" true m
      (by decide) (by decide) hres
    simp [evalState, hv]

/-- C8: malformed input is a no-op: a token whose parse yields an empty
group changes nothing when applied as a baseline op or macro part, and
contributes nothing to the manual overrides of a user expression; and
expanding an active macro name that is not a registry key leaves the
states unchanged. -/
theorem malformed_noop (layers : List LayerInfo) (cd : CharacterData) (s n : String)
    (st : LayerState) (acc : EditorState) (fuel : Nat) :
    ((parseLayerString s).group = "" → applyParsed layers (parseLayerString s) st = st) ∧
    ((parseLayerString s).group = "" →
      (exprStep cd acc s).manualOverrides = acc.manualOverrides) ∧
    (lookupComp cd n = none → expandTop cd fuel [n] st = some st) := by
  refine ⟨fun h => ?_, fun h => ?_, fun h => ?_⟩
  · simp [applyParsed, h]
  · unfold exprStep
    by_cases hk : (lookupComp cd s).isSome
    · simp [hk]
    · simp [hk, h]
  · simp [expandTop, h]

/-- Witness for C8 at a concrete unparseable token and unknown macro. -/
theorem malformed_noop_witness :
    applyParsed wLayers (parseLayerString "Flower") emptyState = emptyState ∧
    (exprStep cdW2 ⟨[], []⟩ "Flower").manualOverrides = [] ∧
    expandTop cdW2 3 ["Ghost"] emptyState = some emptyState := by
  have h := malformed_noop wLayers cdW2 "Flower" "Ghost" emptyState ⟨[], []⟩ 3
  exact ⟨h.1 (by decide), h.2.1 (by decide), h.2.2 (by decide)⟩

/-- C10: the state produced by applyExpression is a function of the
expression text and the loaded character data only: the prior
active-composition set and manual-override map are fully replaced, never
merged in. -/
theorem applyExpression_replaces_state (cd : CharacterData) (e : String)
    (s1 s2 : EditorState) :
    applyExpression cd e s1 = applyExpression cd e s2 := rfl

/-! ## C5: parseDefaultBaseline -/

/-- Split a character list at the first occurrence of a character,
returning the part before it and the entire remainder after it. -/
def splitFirst (sep : Char) : List Char → Option (List Char × List Char)
  | [] => none
  | c :: cs =>
    if c = sep then some ([], cs)
    else
      match splitFirst sep cs with
      | some (b, a) => some (c :: b, a)
      | none => none

/-- The comma-separated items of a segment: split on commas, trimmed,
empty items dropped. -/
def segItems (s : String) : List String :=
  ((jsSplit s ',').map jsTrim).filter (fun i => i != "")

/-- parseDefaultBaseline exactly as the claim words it: split the line on
the first colon into head and, as tail, the entire remainder of the line;
every item of tail goes unconditionally into baseOps first; each head
item whose parse has a non-empty group is appended after tail's items;
the remaining head items are the preset names, in order. -/
def specParseDefaultBaseline (text : String) : DefaultComposition :=
  let t := jsTrim text
  let headTail :=
    match splitFirst ':' t.data with
    | some (b, a) => (String.mk b, String.mk a)
    | none => (t, "")
  ⟨(segItems headTail.1).filter (fun i => (parseLayerString i).group == ""),
   segItems headTail.2 ++
     (segItems headTail.1).filter (fun i => (parseLayerString i).group != "")⟩

/-- parseDefaultBaseline as amended: tail is only the segment between the
first and the second colon, because split(':', 2) discards everything
after a second colon. -/
def specParseDefaultBaseline2 (text : String) : DefaultComposition :=
  let fields := jsSplit (jsTrim text) ':'
  ⟨(segItems (fields.getD 0 "")).filter (fun i => (parseLayerString i).group == ""),
   segItems (fields.getD 1 "") ++
     (segItems (fields.getD 0 "")).filter (fun i => (parseLayerString i).group != "")⟩

/-- C5 counterexample: on a line with a second colon the code keeps only
the segment between the first two colons, while the claim's tail is the
entire remainder after the first colon. -/
theorem parseDefaultComposition_cex :
    parseDefaultComposition ":x+1:y+2" ≠ specParseDefaultBaseline ":x+1:y+2" ∧
    (parseDefaultComposition ":x+1:y+2").layers = ["x+1"] ∧
    (specParseDefaultBaseline ":x+1:y+2").layers = ["x+1:y+2"] := by decide

/-- A combined emptiness-and-predicate filter is the composition of the
two filters. -/
theorem filter_item_split (l : List String) (q : String → Bool) :
    l.filter (fun i => i != "" && q i) = (l.filter (fun i => i != "")).filter q := by
  rw [List.filter_filter]
  exact List.filter_congr (fun a _ => Bool.and_comm _ _)

/-- C5 (amended): parseDefaultBaseline splits its trimmed input on the
first two colons into head and tail (tail being the segment between
them, not the entire remainder); every item of tail goes into baseOps
first, each head item with a parseable non-empty group is appended after
them, and the remaining head items become the preset names, in order. -/
theorem segItems_empty : segItems "" = [] := rfl

theorem parseDefaultComposition_amended (text : String) :
    parseDefaultComposition text = specParseDefaultBaseline2 text := by
  have key : ∀ part1 part2 : String,
      (⟨(if part1 = "" then [] else
          ((jsSplit part1 ',').map jsTrim).filter
            (fun i => i != "" && (parseLayerString i).group == "")),
        (if part2 = "" then [] else
          ((jsSplit part2 ',').map jsTrim).filter (fun i => i != "")) ++
        (if part1 = "" then [] else
          ((jsSplit part1 ',').map jsTrim).filter
            (fun i => i != "" && (parseLayerString i).group != ""))⟩ : DefaultComposition) =
      ⟨(segItems part1).filter (fun i => (parseLayerString i).group == ""),
        segItems part2 ++ (segItems part1).filter
          (fun i => (parseLayerString i).group != "")⟩ := by
    intro part1 part2
    by_cases h1 : part1 = "" <;> by_cases h2 : part2 = "" <;>
      simp [h1, h2, segItems_empty, DefaultComposition.mk.injEq, segItems,
        filter_item_split] <;> decide
  exact key ((jsSplit (jsTrim text) ':').getD 0 "") ((jsSplit (jsTrim text) ':').getD 1 "")

/-- Witness for C5 (amended) at a concrete baseline line. -/
theorem parseDefaultComposition_amended_witness :
    parseDefaultComposition "Smile,Arm+R: A+B , ,C-" =
      specParseDefaultBaseline2 "Smile,Arm+R: A+B , ,C-" ∧
    parseDefaultComposition "Smile,Arm+R: A+B , ,C-" =
      ⟨["Smile"], ["A+B", "C-", "Arm+R"]⟩ :=
  ⟨parseDefaultComposition_amended "Smile,Arm+R: A+B , ,C-", by decide⟩

/-! ## C3: totality of resolve -/

/-- Resolution terminates at some finite recursion depth and returns an
activation map. -/
def terminatesResolve (cd : CharacterData) (names : List String)
    (ov : List (String × Bool)) : Prop :=
  ∃ fuel m, calculateLayerStates cd fuel names ov = some m

/-- The self-referencing registry {A: [A]}. -/
def cdCyc : CharacterData := ⟨[], [("A", ["A"])], ⟨[], []⟩⟩

theorem cyc_expandParts_none (f : Nat) (st : LayerState) :
    expandParts cdCyc f ["A"] st = none := by
  induction f generalizing st with
  | zero => rfl
  | succ f ih =>
    have hl : lookupComp cdCyc "A" = some ["A"] := rfl
    simp [expandParts, expandPartsAux, hl, ih st]

theorem cyc_resolve_none (f : Nat) :
    calculateLayerStates cdCyc f ["A"] [] = none := by
  have hl : lookupComp cdCyc "A" = some ["A"] := rfl
  unfold calculateLayerStates presetStates
  simp [expandTop, hl, cyc_expandParts_none f]

/-- C3 counterexample: with the self-referencing registry {A: [A]} and A
active, the recursive expansion of resolve exceeds every finite depth:
no activation map is ever returned. -/
theorem resolve_not_total : ¬ terminatesResolve cdCyc ["A"] [] := by
  rintro ⟨f, m, h⟩
  rw [cyc_resolve_none f] at h
  exact Option.noConfusion h

/-- A rank function witnessing acyclicity of the registry: every part of
a macro that is itself a registry key has strictly smaller rank than the
macro name. -/
def rankOk (cd : CharacterData) (rank : String → Nat) : Bool :=
  cd.compositions.all (fun e => e.2.all (fun p =>
    !(lookupComp cd p).isSome || decide (rank p < rank e.1)))

theorem rankOk_spec (cd : CharacterData) (rank : String → Nat)
    (h : rankOk cd rank = true) (name : String) (parts : List String)
    (hl : lookupComp cd name = some parts) :
    ∀ p ∈ parts, (lookupComp cd p).isSome = true → rank p < rank name := by
  unfold lookupComp at hl
  cases hfind : cd.compositions.find? (fun e => e.1 == name) with
  | none => rw [hfind] at hl; simp at hl
  | some e =>
    rw [hfind] at hl
    simp only [Option.map_some'] at hl
    have he2 : e.2 = parts := Option.some.inj hl
    have hmem : e ∈ cd.compositions := List.mem_of_find?_eq_some hfind
    have hname : e.1 = name := by simpa using List.find?_some hfind
    intro p hp hkey
    have hall := List.all_eq_true.mp (by unfold rankOk at h; exact h) e hmem
    have hp2 := List.all_eq_true.mp hall p (by rw [he2]; exact hp)
    rw [hkey] at hp2
    simp at hp2
    rw [← hname]
    exact hp2

/-- Under a decreasing rank, a parts list whose keys all have rank below
the fuel expands successfully. -/
theorem expandParts_succeeds (cd : CharacterData) (rank : String → Nat)
    (hok : rankOk cd rank = true) :
    ∀ (B : Nat) (parts : List String) (st : LayerState),
      (∀ p ∈ parts, (lookupComp cd p).isSome = true → rank p < B) →
      ∃ st2, expandParts cd B parts st = some st2 := by
  intro B
  induction B using Nat.strong_induction_on with
  | _ B ih =>
    intro parts
    induction parts with
    | nil =>
      intro st _
      exact ⟨st, by cases B <;> rfl⟩
    | cons p ps ihp =>
      intro st hp
      cases hkey : lookupComp cd p with
      | none =>
        obtain ⟨st2, h2⟩ := ihp (applyParsed cd.layers (parseLayerString p) st)
          (fun q hq hk => hp q (by simp [hq]) hk)
        refine ⟨st2, ?_⟩
        cases B with
        | zero => simpa [expandParts, expandPartsAux, hkey] using h2
        | succ B2 => simpa [expandParts, expandPartsAux, hkey] using h2
      | some sub =>
        have hrp : rank p < B := hp p (by simp) (by simp [hkey])
        cases B with
        | zero => omega
        | succ B2 =>
          have hsub : ∀ q ∈ sub, (lookupComp cd q).isSome = true → rank q < B2 := by
            intro q hq hk
            have h1 := rankOk_spec cd rank hok p sub hkey q hq hk
            omega
          obtain ⟨st2, h2⟩ := ih B2 (by omega) sub st hsub
          obtain ⟨st3, h3⟩ := ihp st2 (fun q hq hk => hp q (by simp [hq]) hk)
          refine ⟨st3, ?_⟩
          simpa [expandParts, expandPartsAux, hkey, h2] using h3

/-- The largest rank of any registry name. -/
def maxRankOf (cd : CharacterData) (rank : String → Nat) : Nat :=
  (cd.compositions.map (fun e => rank e.1)).foldr max 0

theorem le_foldr_max (x : Nat) (l : List Nat) (hx : x ∈ l) : x ≤ l.foldr max 0 := by
  induction l with
  | nil => cases hx
  | cons y ys ih =>
    rcases List.mem_cons.mp hx with h | h
    · simp [h, le_max_iff]
    · simp [le_max_iff, ih h]

theorem rank_le_max (cd : CharacterData) (rank : String → Nat) (n : String)
    (parts : List String) (hl : lookupComp cd n = some parts) :
    rank n ≤ maxRankOf cd rank := by
  unfold lookupComp at hl
  cases hfind : cd.compositions.find? (fun e => e.1 == n) with
  | none => rw [hfind] at hl; simp at hl
  | some e =>
    have hmem : e ∈ cd.compositions := List.mem_of_find?_eq_some hfind
    have hname : e.1 = n := by simpa using List.find?_some hfind
    have hm : rank e.1 ∈ cd.compositions.map (fun e => rank e.1) :=
      List.mem_map_of_mem _ hmem
    rw [← hname]
    exact le_foldr_max _ _ hm

/-- C3 (amended): resolve terminates and returns an activation map for
every catalog, baseline, active macro names and manual overrides whose
registry is acyclic, i.e. admits a rank strictly decreasing from each
macro to the registry-key parts it references; for a registry in which a
macro references itself directly or transitively the recursive expansion
terminates at no finite depth (see the counterexample). -/
theorem resolve_total_of_rank (cd : CharacterData) (rank : String → Nat)
    (hok : rankOk cd rank = true) (names : List String)
    (ov : List (String × Bool)) :
    terminatesResolve cd names ov := by
  have htop : ∀ (ns : List String) (st : LayerState),
      ∃ st2, expandTop cd (maxRankOf cd rank + 1) ns st = some st2 := by
    intro ns
    induction ns with
    | nil => intro st; exact ⟨st, rfl⟩
    | cons n ns ih =>
      intro st
      cases hkey : lookupComp cd n with
      | none => simpa [expandTop, hkey] using ih st
      | some parts =>
        have hparts : ∀ p ∈ parts, (lookupComp cd p).isSome = true →
            rank p < maxRankOf cd rank + 1 := by
          intro p hp hk
          have h1 := rankOk_spec cd rank hok n parts hkey p hp hk
          have h2 : rank n ≤ maxRankOf cd rank := rank_le_max cd rank n parts hkey
          omega
        obtain ⟨st2, h2⟩ := expandParts_succeeds cd rank hok
          (maxRankOf cd rank + 1) parts st hparts
        obtain ⟨st3, h3⟩ := ih st2
        exact ⟨st3, by simp [expandTop, hkey, h2, h3]⟩
  obtain ⟨st2, h2⟩ := htop names
    (applyLayerStrings cd.defaultComposition.layers emptyState cd.layers)
  exact ⟨maxRankOf cd rank + 1, applyOverrides ov st2,
    by simp [calculateLayerStates, presetStates, h2]⟩

/-- Two-level acyclic registry for the C3 witness. -/
def cdW3 : CharacterData :=
  ⟨wLayers, [("A", ["B", "Eyes+Open"]), ("B", ["Eyes>Closed"])], ⟨[], []⟩⟩

/-- Rank function for the C3 witness registry. -/
def rankW3 : String → Nat := fun n => if n = "A" then 1 else 0

/-- Witness for C3 (amended) at a concrete acyclic registry. -/
theorem resolve_total_of_rank_witness : terminatesResolve cdW3 ["A"] [] :=
  resolve_total_of_rank cdW3 rankW3 (by decide) ["A"] []

/-! ## C7: synthesizer output format -/

/-- Inserting into a sorted list is a permutation of consing. -/
theorem insertSorted_perm (s : String) (l : List String) :
    (insertSorted s l).Perm (s :: l) := by
  induction l with
  | nil => exact List.Perm.refl _
  | cons t ts ih =>
    unfold insertSorted
    by_cases h : s < t
    · simp [h]
    · simp only [if_neg h]
      exact (ih.cons t).trans (List.Perm.swap s t ts)

/-- overrideExpressions.sort() is a permutation of the token list. -/
theorem sortStrings_perm (l : List String) : (sortStrings l).Perm l := by
  induction l with
  | nil => exact List.Perm.refl _
  | cons x xs ih =>
    exact (insertSorted_perm x (sortStrings xs)).trans (ih.cons x)

theorem append_comma_ne (a b : String) : a ++ "," ++ b ≠ "" := by
  intro h
  have h2 := congrArg String.data h
  simp [String.data_append] at h2

/-- Joining a non-empty list of non-empty strings is non-empty. -/
theorem joinComma_ne_empty (l : List String) (hne : l ≠ []) (h : ∀ t ∈ l, t ≠ "") :
    joinComma l ≠ "" := by
  match l with
  | [s] => exact h s (by simp)
  | s :: t :: rest =>
    show s ++ "," ++ joinComma (t :: rest) ≠ ""
    exact append_comma_ne s (joinComma (t :: rest))

/-- The synthesized text exactly as the claim words it: the macro names
joined with commas in the caller's order, concatenated with "," and the
diff tokens sorted lexicographically by their emitted text (the comma
omitted when either list is empty), and the literal "Default" when both
the macro-name list and the diff-token list are empty. -/
def specAssembleC7 (names tokens : List String) : String :=
  if names = [] ∧ tokens = [] then "Default"
  else if tokens = [] then joinComma names
  else if names = [] then joinComma (sortStrings tokens)
  else joinComma names ++ "," ++ joinComma (sortStrings tokens)

/-- The synthesized text as amended: the comma and the fallback are
keyed on the joined macro-name string being empty, not on the macro-name
list being empty. -/
def specAssembleC7Amended (names tokens : List String) : String :=
  if joinComma names = "" ∧ tokens = [] then "Default"
  else if tokens = [] then joinComma names
  else if joinComma names = "" then joinComma (sortStrings tokens)
  else joinComma names ++ "," ++ joinComma (sortStrings tokens)

/-- Empty character data for the C7 counterexample. -/
def cd0 : CharacterData := ⟨[], [], ⟨[], []⟩⟩

/-- C7 counterexample: with the caller-supplied macro-name list [""]
(an empty-string macro name, as a registry line " :..." can produce)
and no diff tokens, the code produces the fallback "Default" although
the macro-name list is non-empty, while the claimed format produces the
empty joined string: the fallback triggers whenever the assembled string
is empty, not only when both lists are empty. -/
theorem generateExpression_cex :
    presetStates cd0 1 [""] = some emptyState ∧
    generateExpression cd0 1 [""] emptyState = some "Default" ∧
    specAssembleC7 [""] (overrideExpressions cd0 emptyState emptyState) = "" ∧
    ("Default" : String) ≠ "" := by
  refine ⟨rfl, rfl, ?_, by decide⟩
  decide

/-- The tokens emitted for a group are never the empty string. -/
theorem groupTokens_ne_empty (cd : CharacterData) (current presetOnly : LayerState)
    (g : String) : ∀ t ∈ groupTokens cd current presetOnly g, t ≠ "" := by
  intro t ht
  unfold groupTokens at ht
  rcases hm : cd.layers.filter (fun l => l.group == g && current l.id) with _ | ⟨a, rest⟩
  · rw [hm] at ht
    simp only [List.mem_singleton] at ht
    subst ht
    intro h
    have h2 := congrArg String.data h
    simp [String.data_append] at h2
  · rcases rest with _ | ⟨b, rest2⟩
    · rw [hm] at ht
      simp only [List.mem_singleton] at ht
      subst ht
      intro h
      have h2 := congrArg String.data h
      simp [String.data_append] at h2
    · rw [hm] at ht
      simp only [List.mem_map] at ht
      obtain ⟨l, _, hl⟩ := ht
      subst hl
      intro h
      have h2 := congrArg String.data h
      by_cases hc : current l.id = true <;> simp [hc, String.data_append] at h2

/-- Every override token of the synthesizer is a non-empty string. -/
theorem overrideExpressions_ne_empty (cd : CharacterData)
    (current presetOnly : LayerState) :
    ∀ t ∈ overrideExpressions cd current presetOnly, t ≠ "" := by
  intro t ht
  unfold overrideExpressions at ht
  rw [List.mem_flatMap] at ht
  obtain ⟨g, _, hg⟩ := ht
  exact groupTokens_ne_empty cd current presetOnly g t hg

/-- The final text assembly of generateExpression, in terms of the
joined-and-sorted parts, for token lists of non-empty strings. -/
theorem assembleExpression_eq (names tokens : List String)
    (htok : ∀ t ∈ tokens, t ≠ "") :
    assembleExpression names tokens = specAssembleC7Amended names tokens := by
  unfold assembleExpression specAssembleC7Amended
  by_cases h1 : tokens = []
  · subst h1
    by_cases h2 : joinComma names = "" <;> simp [h2]
  · have hlen : 0 < tokens.length := List.length_pos.mpr h1
    have hsne : sortStrings tokens ≠ [] := by
      intro h
      have hl := (sortStrings_perm tokens).length_eq
      rw [h] at hl
      exact h1 (List.eq_nil_of_length_eq_zero hl.symm)
    have hstok : ∀ t ∈ sortStrings tokens, t ≠ "" :=
      fun t ht => htok t (((sortStrings_perm tokens).mem_iff).mp ht)
    have hjs : joinComma (sortStrings tokens) ≠ "" :=
      joinComma_ne_empty _ hsne hstok
    by_cases h2 : joinComma names = ""
    · simp only [h1, hlen, if_true, h2]
      simp [hjs]
    · simp only [h1, hlen, if_true, h2]
      simp [h2, append_comma_ne]

/-- C7 (amended): for every final activation map and caller-supplied
active-macro-name list (whenever the preset-only resolution terminates),
the synthesized text is the macro names joined with commas in exactly
the caller's order, concatenated with "," and the diff tokens sorted
lexicographically by their emitted text; the comma is omitted when the
joined macro-name string is empty, and the result is the literal
"Default" exactly when the joined macro-name string is empty and the
diff-token list is empty. -/
theorem generateExpression_format (cd : CharacterData) (fuel : Nat)
    (names : List String) (current st0 : LayerState)
    (hpre : presetStates cd fuel names = some st0) :
    generateExpression cd fuel names current =
      some (specAssembleC7Amended names (overrideExpressions cd current st0)) := by
  unfold generateExpression
  rw [hpre, Option.map_some']
  exact congrArg some (assembleExpression_eq names _
    (overrideExpressions_ne_empty cd current st0))

/-- Example B/C character data of the spec. -/
def cdB : CharacterData :=
  ⟨[⟨"Mouth", "Grin", "Mouth/Grin"⟩, ⟨"Mouth", "Frown", "Mouth/Frown"⟩],
   [("Smile", ["Mouth>Grin"])], ⟨["Smile"], []⟩⟩

/-- Preset-only states of the C7 witness. -/
def stB : LayerState := (presetStates cdB 1 ["Smile"]).getD emptyState

/-- Final states of the C7 witness: Smile plus a manual Frown override. -/
def finalB : LayerState := applyOverrides [("Mouth/Frown", true)] stB

/-- Witness for C7 (amended) at the spec's Example C data. -/
theorem generateExpression_format_witness :
    generateExpression cdB 1 ["Smile"] finalB =
      some (specAssembleC7Amended ["Smile"] (overrideExpressions cdB finalB stB)) ∧
    generateExpression cdB 1 ["Smile"] finalB = some "Smile,Mouth+Frown" :=
  ⟨generateExpression_format cdB 1 ["Smile"] finalB stB rfl, by decide⟩

/-! ## C1: round trip.  Support layer: split, join and trim lemmas. -/

theorem mk_data (s : String) : String.mk s.data = s := rfl

theorem splitChars_ne_nil (sep : Char) (l : List Char) : splitChars sep l ≠ [] := by
  cases l with
  | nil => simp [splitChars]
  | cons c cs =>
    unfold splitChars
    by_cases hc : c = sep
    · simp [hc]
    · rw [if_neg hc]
      cases hsp : splitChars sep cs with
      | nil => simp [consChunk]
      | cons h t => simp [consChunk]

/-- A chunk of a split never contains the separator. -/
theorem splitChars_no_sep (sep : Char) (l : List Char) :
    ∀ u ∈ splitChars sep l, sep ∉ u := by
  induction l with
  | nil =>
    intro u hu
    simp only [splitChars, List.mem_singleton] at hu
    simp [hu]
  | cons c cs ih =>
    intro u hu
    unfold splitChars at hu
    by_cases hc : c = sep
    · rw [if_pos hc] at hu
      rcases List.mem_cons.mp hu with h | h
      · simp [h]
      · exact ih u h
    · rw [if_neg hc] at hu
      cases hsp : splitChars sep cs with
      | nil => exact absurd hsp (splitChars_ne_nil sep cs)
      | cons h t =>
        rw [hsp] at hu
        simp only [consChunk] at hu
        rcases List.mem_cons.mp hu with h2 | h2
        · subst h2
          intro hmem
          rcases List.mem_cons.mp hmem with h3 | h3
          · exact hc h3.symm
          · exact ih h (by rw [hsp]; simp) h3
        · exact ih u (by rw [hsp]; simp [h2])

/-- Characters of a chunk come from the split string. -/
theorem splitChars_subset (sep : Char) (l : List Char) :
    ∀ u ∈ splitChars sep l, ∀ d ∈ u, d ∈ l := by
  induction l with
  | nil =>
    intro u hu
    simp only [splitChars, List.mem_singleton] at hu
    simp [hu]
  | cons c cs ih =>
    intro u hu d hd
    unfold splitChars at hu
    by_cases hc : c = sep
    · rw [if_pos hc] at hu
      rcases List.mem_cons.mp hu with h | h
      · subst h; cases hd
      · exact List.mem_cons_of_mem c (ih u h d hd)
    · rw [if_neg hc] at hu
      cases hsp : splitChars sep cs with
      | nil => exact absurd hsp (splitChars_ne_nil sep cs)
      | cons h t =>
        rw [hsp] at hu
        simp only [consChunk] at hu
        rcases List.mem_cons.mp hu with h2 | h2
        · subst h2
          rcases List.mem_cons.mp hd with h3 | h3
          · simp [h3]
          · exact List.mem_cons_of_mem c (ih h (by rw [hsp]; simp) d h3)
        · exact List.mem_cons_of_mem c (ih u (by rw [hsp]; simp [h2]) d hd)

/-- Splitting distributes over an explicit separator occurrence. -/
theorem splitChars_append (sep : Char) (xs ys : List Char) :
    splitChars sep (xs ++ sep :: ys) = splitChars sep xs ++ splitChars sep ys := by
  induction xs with
  | nil => simp [splitChars]
  | cons c cs ih =>
    show splitChars sep (c :: (cs ++ sep :: ys)) = splitChars sep (c :: cs) ++ splitChars sep ys
    by_cases hc : c = sep
    · simp [splitChars, hc, ih]
    · simp only [splitChars, if_neg hc]
      rw [ih]
      cases hsp : splitChars sep cs with
      | nil => exact absurd hsp (splitChars_ne_nil sep cs)
      | cons h t => simp [consChunk]

/-- Splitting a separator-free string yields the one chunk. -/
theorem splitChars_eq_self (sep : Char) (l : List Char) (h : sep ∉ l) :
    splitChars sep l = [l] := by
  induction l with
  | nil => rfl
  | cons c cs ih =>
    unfold splitChars
    have hc : ¬ c = sep := fun he => h (by simp [he])
    rw [if_neg hc, ih (fun hm => h (by simp [hm]))]
    rfl

/-- Characters of a join are commas or characters of the parts. -/
theorem joinComma_chars : ∀ (L : List String), ∀ d ∈ (joinComma L).data,
    d = ',' ∨ ∃ s ∈ L, d ∈ s.data
  | [] => by intro d hd; cases hd
  | [s] => by
    intro d hd
    right
    exact ⟨s, by simp, hd⟩
  | s :: t :: rest => by
    intro d hd
    have hdata : (joinComma (s :: t :: rest)).data
        = s.data ++ ',' :: (joinComma (t :: rest)).data := by
      show (s ++ "," ++ joinComma (t :: rest)).data = _
      simp [String.data_append]
    rw [hdata] at hd
    rcases List.mem_append.mp hd with h | h
    · right; exact ⟨s, by simp, h⟩
    · rcases List.mem_cons.mp h with h2 | h2
      · left; exact h2
      · rcases joinComma_chars (t :: rest) d h2 with h3 | ⟨u, hu, hdu⟩
        · left; exact h3
        · right; exact ⟨u, by simp [hu], hdu⟩

theorem mem_dropWhile (p : Char → Bool) (l : List Char) :
    ∀ d ∈ l.dropWhile p, d ∈ l := by
  induction l with
  | nil => simp
  | cons c cs ih =>
    intro d hd
    by_cases hc : p c = true
    · rw [List.dropWhile_cons_of_pos hc] at hd
      exact List.mem_cons_of_mem c (ih d hd)
    · rw [List.dropWhile_cons_of_neg hc] at hd
      exact hd

/-- Characters of a trim come from the trimmed string. -/
theorem trimChars_subset (l : List Char) : ∀ d ∈ trimChars l, d ∈ l := by
  intro d hd
  unfold trimChars at hd
  rw [List.mem_reverse] at hd
  have h1 := mem_dropWhile Char.isWhitespace _ d hd
  rw [List.mem_reverse] at h1
  exact mem_dropWhile Char.isWhitespace l d h1

theorem dropWhile_eq_self_of (p : Char → Bool) (l : List Char)
    (h : ∀ c ∈ l, p c = false) : l.dropWhile p = l := by
  cases l with
  | nil => rfl
  | cons c cs => rw [List.dropWhile_cons_of_neg (by simp [h c (by simp)])]

/-- Trimming a string without whitespace is the identity. -/
theorem trimChars_eq_self (l : List Char) (h : ∀ c ∈ l, c.isWhitespace = false) :
    trimChars l = l := by
  unfold trimChars
  rw [dropWhile_eq_self_of Char.isWhitespace l h,
    dropWhile_eq_self_of Char.isWhitespace l.reverse
      (fun c hc => h c (List.mem_reverse.mp hc)),
    List.reverse_reverse]

theorem jsTrim_eq_self (s : String) (h : ∀ c ∈ s.data, c.isWhitespace = false) :
    jsTrim s = s := by
  unfold jsTrim
  rw [trimChars_eq_self s.data h, mk_data]

/-- Splitting the join of comma-free parts recovers the parts. -/
theorem jsSplit_joinComma : ∀ (L : List String), L ≠ [] →
    (∀ s ∈ L, (',' : Char) ∉ s.data) → jsSplit (joinComma L) ',' = L
  | [], h, _ => absurd rfl h
  | [s], _, hc => by
    show jsSplit s ',' = [s]
    unfold jsSplit
    rw [splitChars_eq_self ',' s.data (hc s (by simp))]
    simp [mk_data]
  | s :: t :: rest, _, hc => by
    have hdata : (joinComma (s :: t :: rest)).data
        = s.data ++ ',' :: (joinComma (t :: rest)).data := by
      show (s ++ "," ++ joinComma (t :: rest)).data = _
      simp [String.data_append]
    unfold jsSplit
    rw [hdata, splitChars_append, splitChars_eq_self ',' s.data (hc s (by simp)),
      List.map_append]
    have ih := jsSplit_joinComma (t :: rest) (by simp)
      (fun u hu => hc u (by simp [hu]))
    unfold jsSplit at ih
    rw [ih]
    simp [mk_data]

/-! ### Characterizing the overrides parsed from an expression -/

/-- The manual-override entries one part contributes in applyExpression. -/
def ovOfPart (cd : CharacterData) (p : String) : List (String × Bool) :=
  if (lookupComp cd p).isSome then []
  else
    let q := parseLayerString p
    if q.group = "" then []
    else if q.op = '-' && q.name = "" then
      (cd.layers.filter (fun l => l.group == q.group)).map (fun l => (l.id, false))
    else if q.op = '>' then
      (cd.layers.filter (fun l => l.group == q.group)).map
        (fun l => (l.id, l.name == q.name))
    else if q.op = '+' then [(mkId q.group q.name, true)]
    else if q.op = '-' then [(mkId q.group q.name, false)]
    else []

theorem exprStep_overrides (cd : CharacterData) (acc : EditorState) (p : String) :
    (exprStep cd acc p).manualOverrides = acc.manualOverrides ++ ovOfPart cd p := by
  unfold exprStep ovOfPart
  by_cases hk : (lookupComp cd p).isSome
  · simp [hk]
  · simp only [hk, if_false, Bool.false_eq_true]
    by_cases h1 : (parseLayerString p).group = ""
    · simp [h1]
    · simp only [h1, if_false]
      by_cases h2 : ((parseLayerString p).op = '-' && (parseLayerString p).name = "") = true
      · simp [h2]
      · simp only [h2, if_false, Bool.false_eq_true]
        by_cases h3 : (parseLayerString p).op = '>'
        · simp [h3]
        · simp only [h3, if_false]
          by_cases h4 : (parseLayerString p).op = '+'
          · simp [h4]
          · simp only [h4, if_false]
            by_cases h5 : (parseLayerString p).op = '-'
            · simp [h5]
            · simp [h5]

theorem foldl_exprStep_overrides (cd : CharacterData) (parts : List String)
    (acc : EditorState) :
    (parts.foldl (exprStep cd) acc).manualOverrides =
      acc.manualOverrides ++ parts.flatMap (ovOfPart cd) := by
  induction parts generalizing acc with
  | nil => simp
  | cons p ps ih =>
    simp only [List.foldl_cons, List.flatMap_cons, ih, exprStep_overrides]
    rw [List.append_assoc]

/-- parseOverrides is the concatenation of the per-part contributions. -/
theorem parseOverrides_eq (cd : CharacterData) (e : String) :
    parseOverrides cd e = (partsOf e).flatMap (ovOfPart cd) := by
  unfold parseOverrides applyExpression
  rw [foldl_exprStep_overrides]
  rfl

/-- A part whose characters are all operator-free contributes nothing:
it is either a registry key (collected as a composition) or parses to
the sentinel with an empty group. -/
theorem ovOfPart_opfree (cd : CharacterData) (u : String)
    (h : ∀ c ∈ u.data, isOpChar c = false) : ovOfPart cd u = [] := by
  unfold ovOfPart
  by_cases hk : (lookupComp cd u).isSome
  · simp [hk]
  · have hfind : findOp u.data = none := findOp_eq_none u.data h
    have hdash : endsWithDash u = false := by
      unfold endsWithDash
      cases hlast : u.data.getLast? with
      | none => rfl
      | some c =>
        have hc : c ∈ u.data := List.mem_of_mem_getLast? hlast
        have := h c hc
        by_cases he : c = '-'
        · rw [he] at this; simp [isOpChar] at this
        · simp [he]
    have hp : parseLayerString u = ⟨"", "", '+'⟩ := by
      unfold parseLayerString
      rw [hfind, hdash]
      simp
    simp [hk, hp]

/-! ### Catalog and registry well-formedness for the round trip -/

/-- No-whitespace, no-comma character predicate for catalog fields. -/
def charClean (c : Char) : Bool := !c.isWhitespace && !(c = ',')

/-- Catalog well-formedness: each layer id is exactly group/name, ids are
pairwise distinct (spec: ids are unique within a catalog), group names
are non-empty and operator-free, and group and layer names are non-empty
without commas or whitespace. -/
def catalogOk (cd : CharacterData) : Bool :=
  cd.layers.all (fun l =>
    decide (l.id = mkId l.group l.name) &&
    decide (l.group ≠ "") && decide (l.name ≠ "") &&
    l.group.data.all (fun c => !isOpChar c && charClean c) &&
    l.name.data.all charClean) &&
  decide ((cd.layers.map LayerInfo.id).Nodup)

/-- Registry keys contain no operator characters. -/
def keysOk (cd : CharacterData) : Bool :=
  cd.compositions.all (fun e => e.1.data.all (fun c => !isOpChar c))

theorem catalogOk_layer (cd : CharacterData) (h : catalogOk cd = true)
    (l : LayerInfo) (hl : l ∈ cd.layers) :
    l.id = mkId l.group l.name ∧ l.group ≠ "" ∧ l.name ≠ "" ∧
    (∀ c ∈ l.group.data, isOpChar c = false ∧ charClean c = true) ∧
    (∀ c ∈ l.name.data, charClean c = true) := by
  unfold catalogOk at h
  rw [Bool.and_eq_true] at h
  have h1 := List.all_eq_true.mp h.1 l hl
  simp only [Bool.and_eq_true, decide_eq_true_eq, List.all_eq_true] at h1
  obtain ⟨⟨⟨⟨hid, hg⟩, hn⟩, hgc⟩, hnc⟩ := h1
  refine ⟨hid, hg, hn, fun c hc => ?_, hnc⟩
  have h2 := hgc c hc
  exact ⟨by simpa using h2.1, h2.2⟩

theorem catalogOk_inj (cd : CharacterData) (h : catalogOk cd = true)
    (l1 l2 : LayerInfo) (h1 : l1 ∈ cd.layers) (h2 : l2 ∈ cd.layers)
    (hid : l1.id = l2.id) : l1 = l2 := by
  unfold catalogOk at h
  rw [Bool.and_eq_true] at h
  have hnd := h.2
  rw [decide_eq_true_eq] at hnd
  exact List.inj_on_of_nodup_map hnd h1 h2 hid

theorem parseLayerString_of_data (t g n : String) (c : Char)
    (ht : t.data = g.data ++ c :: n.data)
    (hg : ∀ d ∈ g.data, isOpChar d = false) (hc : isOpChar c = true) :
    parseLayerString t = ⟨g, n, c⟩ := by
  unfold parseLayerString
  rw [ht, findOp_append g.data c n.data hg hc]

theorem lookupComp_none_of_op (cd : CharacterData) (hkeys : keysOk cd = true)
    (t : String) (c : Char) (hc : c ∈ t.data) (hop : isOpChar c = true) :
    lookupComp cd t = none := by
  unfold lookupComp
  cases hfind : cd.compositions.find? (fun e => e.1 == t) with
  | none => rfl
  | some e =>
    exfalso
    have hmem := List.mem_of_find?_eq_some hfind
    have hname : e.1 = t := by simpa using List.find?_some hfind
    unfold keysOk at hkeys
    have h1 := List.all_eq_true.mp hkeys e hmem
    rw [List.all_eq_true] at h1
    have h2 := h1 c (by rw [hname]; exact hc)
    rw [hop] at h2
    simp at h2

/-- Data of a one-character-joined token. -/
theorem token_data (g mid n : String) (c : Char) (hmid : mid.data = [c]) :
    (g ++ mid ++ n).data = g.data ++ c :: n.data := by
  simp [String.data_append, hmid]

/-- The override contribution of a well-formed token. -/
theorem ovOfPart_token (cd : CharacterData) (hkeys : keysOk cd = true)
    (g n : String) (c : Char)
    (hg : ∀ d ∈ g.data, isOpChar d = false) (hgne : g ≠ "") (hc : isOpChar c = true)
    (t : String) (ht : t.data = g.data ++ c :: n.data) :
    ovOfPart cd t =
      (if c = '-' ∧ n = "" then
        (cd.layers.filter (fun l => l.group == g)).map (fun l => (l.id, false))
      else if c = '>' then
        (cd.layers.filter (fun l => l.group == g)).map (fun l => (l.id, l.name == n))
      else if c = '+' then [(mkId g n, true)]
      else if c = '-' then [(mkId g n, false)]
      else []) := by
  have hp : parseLayerString t = ⟨g, n, c⟩ := parseLayerString_of_data t g n c ht hg hc
  have hk : lookupComp cd t = none :=
    lookupComp_none_of_op cd hkeys t c (by rw [ht]; simp) hc
  unfold ovOfPart
  rw [hk, hp]
  by_cases h1 : c = '-' ∧ n = ""
  · simp [hgne, h1]
  · simp only [hgne, if_neg h1]
    by_cases h2 : c = '>'
    · simp [hgne, h2, h1]
    · by_cases h3 : c = '+'
      · simp [hgne, h2, h3, h1]
      · by_cases h4 : c = '-'
        · have hn : n ≠ "" := fun he => h1 ⟨h4, he⟩
          simp [hgne, h2, h3, h4, hn]
        · simp [hgne, h2, h3, h4, h1]

/-! ### The emitted tokens and their groups -/

theorem mem_dedupStr (x : String) : ∀ (l seen : List String),
    (x ∈ dedupStr seen l ↔ x ∈ l ∧ x ∉ seen)
  | [], seen => by simp [dedupStr]
  | y :: ys, seen => by
    unfold dedupStr
    by_cases hy : seen.contains y = true
    · rw [if_pos hy, mem_dedupStr x ys seen]
      constructor
      · rintro ⟨h1, h2⟩
        exact ⟨List.mem_cons_of_mem y h1, h2⟩
      · rintro ⟨h1, h2⟩
        rcases List.mem_cons.mp h1 with h3 | h3
        · subst h3
          exact absurd (by simpa using hy) h2
        · exact ⟨h3, h2⟩
    · rw [if_neg hy, List.mem_cons]
      constructor
      · rintro (h1 | h1)
        · subst h1
          exact ⟨List.mem_cons_self x ys, fun hx => hy (by simpa using hx)⟩
        · have h2 := (mem_dedupStr x ys (y :: seen)).mp h1
          exact ⟨List.mem_cons_of_mem y h2.1,
            fun hx => h2.2 (List.mem_cons_of_mem y hx)⟩
      · rintro ⟨h1, h2⟩
        by_cases hxy : x = y
        · exact Or.inl hxy
        · rcases List.mem_cons.mp h1 with h3 | h3
          · exact absurd h3 hxy
          · exact Or.inr ((mem_dedupStr x ys (y :: seen)).mpr
              ⟨h3, fun hx => (List.mem_cons.mp hx).elim hxy h2⟩)

/-- Membership in overriddenGroups is exactly having a first-found diff
layer with that group. -/
theorem mem_overriddenGroups (cd : CharacterData) (current st0 : LayerState)
    (g : String) :
    g ∈ overriddenGroups cd current st0 ↔
      ∃ l ∈ cd.layers, (decide (findLayer cd l.id = some l) &&
        hasRequired cd current st0 l.id) = true ∧ l.group = g := by
  unfold overriddenGroups
  rw [mem_dedupStr]
  simp only [List.not_mem_nil, not_false_iff, and_true, List.mem_map, List.mem_filter]
  constructor
  · rintro ⟨l, ⟨hl, hc⟩, hg⟩
    exact ⟨l, hl, hc, hg⟩
  · rintro ⟨l, hl, hc, hg⟩
    exact ⟨l, ⟨hl, hc⟩, hg⟩

/-- With pairwise distinct ids, every catalog layer is the first found
for its own id. -/
theorem findLayer_self (cd : CharacterData) (hcat : catalogOk cd = true)
    (l : LayerInfo) (hl : l ∈ cd.layers) : findLayer cd l.id = some l := by
  unfold findLayer
  cases hfind : cd.layers.find? (fun l2 => l2.id == l.id) with
  | none =>
    exfalso
    have hs : (cd.layers.find? (fun l2 => l2.id == l.id)).isSome := by
      rw [List.find?_isSome]
      exact ⟨l, hl, by simp⟩
    rw [hfind] at hs
    simp at hs
  | some l2 =>
    have hmem := List.mem_of_find?_eq_some hfind
    have hid : l2.id = l.id := by simpa using List.find?_some hfind
    rw [catalogOk_inj cd hcat l2 l hmem hl hid]

/-- Shape of a token emitted for group g. -/
theorem groupTokens_cases (cd : CharacterData) (current st0 : LayerState) (g : String)
    (t : String) (ht : t ∈ groupTokens cd current st0 g) :
    (cd.layers.filter (fun l => l.group == g && current l.id) = [] ∧ t = g ++ "-") ∨
    (∃ L, cd.layers.filter (fun l => l.group == g && current l.id) = [L] ∧
      t = L.group ++ ">" ++ L.name) ∨
    (∃ a b rest, cd.layers.filter (fun l => l.group == g && current l.id)
        = a :: b :: rest ∧
      ∃ l ∈ cd.layers, (l.group == g && hasRequired cd current st0 l.id) = true ∧
        t = l.group ++ (if current l.id then "+" else "-") ++ l.name) := by
  unfold groupTokens at ht
  rcases hm : cd.layers.filter (fun l => l.group == g && current l.id) with _ | ⟨a, rest⟩
  · rw [hm] at ht
    left
    exact ⟨hm, by simpa using ht⟩
  · rcases rest with _ | ⟨b, rest2⟩
    · rw [hm] at ht
      right; left
      exact ⟨a, hm, by simpa using ht⟩
    · rw [hm] at ht
      right; right
      refine ⟨a, b, rest2, hm, ?_⟩
      simp only [List.mem_map, List.mem_filter] at ht
      obtain ⟨l, ⟨hl, hcond⟩, heq⟩ := ht
      exact ⟨l, hl, hcond, heq.symm⟩

/-- Characters of every emitted override token are clean: no comma, no
whitespace. -/
theorem overrideExpressions_clean (cd : CharacterData) (hcat : catalogOk cd = true)
    (current st0 : LayerState) :
    ∀ t ∈ overrideExpressions cd current st0, ∀ d ∈ t.data, charClean d = true := by
  intro t ht d hd
  unfold overrideExpressions at ht
  rw [List.mem_flatMap] at ht
  obtain ⟨g, hg, hgt⟩ := ht
  rw [mem_overriddenGroups] at hg
  obtain ⟨l0, hl0, _, hl0g⟩ := hg
  have hcl0 := catalogOk_layer cd hcat l0 hl0
  rcases groupTokens_cases cd current st0 g t hgt with ⟨_, hteq⟩ | ⟨L, hLf, hteq⟩ |
    ⟨a, b, rest, _, l, hl, _, hteq⟩
  · subst hteq
    rw [show (g ++ "-").data = g.data ++ ['-'] from by simp [String.data_append]] at hd
    rcases List.mem_append.mp hd with h | h
    · rw [← hl0g] at h
      exact (hcl0.2.2.2.1 d h).2
    · simp only [List.mem_singleton] at h
      subst h
      decide
  · have hLmem : L ∈ cd.layers := by
      have hLin : L ∈ cd.layers.filter (fun l => l.group == g && current l.id) := by
        rw [hLf]
        simp
      exact (List.mem_filter.mp hLin).1
    have hcL := catalogOk_layer cd hcat L hLmem
    subst hteq
    rw [token_data L.group ">" L.name '>' rfl] at hd
    rcases List.mem_append.mp hd with h | h
    · exact (hcL.2.2.2.1 d h).2
    · rcases List.mem_cons.mp h with h2 | h2
      · subst h2
        decide
      · exact hcL.2.2.2.2 d h2
  · have hcl := catalogOk_layer cd hcat l hl
    subst hteq
    by_cases hcur : current l.id = true
    · rw [if_pos hcur, token_data l.group "+" l.name '+' rfl] at hd
      rcases List.mem_append.mp hd with h | h
      · exact (hcl.2.2.2.1 d h).2
      · rcases List.mem_cons.mp h with h2 | h2
        · subst h2
          decide
        · exact hcl.2.2.2.2 d h2
    · rw [if_neg hcur, token_data l.group "-" l.name '-' rfl] at hd
      rcases List.mem_append.mp hd with h | h
      · exact (hcl.2.2.2.1 d h).2
      · rcases List.mem_cons.mp h with h2 | h2
        · subst h2
          decide
        · exact hcl.2.2.2.2 d h2

/-- Splitting on commas distributes over the comma concatenation. -/
theorem partsOf_append_comma (a b : String) :
    partsOf (a ++ "," ++ b) = partsOf a ++ partsOf b := by
  unfold partsOf jsSplit
  rw [show (a ++ "," ++ b).data = a.data ++ ',' :: b.data from by
      simp [String.data_append],
    splitChars_append, List.map_append, List.map_append, List.filter_append]

/-- partsOf of a join of clean non-empty tokens is the token list. -/
theorem partsOf_join_tokens (L : List String) (hne : ∀ t ∈ L, t ≠ "")
    (hclean : ∀ t ∈ L, ∀ d ∈ t.data, charClean d = true) :
    partsOf (joinComma L) = L := by
  by_cases h0 : L = []
  · subst h0
    rfl
  · unfold partsOf
    rw [jsSplit_joinComma L h0 (fun s hs hc => by
      have := hclean s hs ',' hc
      simp [charClean] at this)]
    rw [List.map_congr_left (fun t ht => jsTrim_eq_self t (fun c hc => by
      have := hclean t ht c hc
      unfold charClean at this
      rw [Bool.and_eq_true] at this
      simpa using this.1))]
    rw [List.map_id', List.filter_eq_self.mpr (fun t ht => by
      simpa using hne t ht)]

/-- Every part of the split of a join of operator-free strings is
operator-free. -/
theorem partsOf_join_opfree (L : List String)
    (h : ∀ s ∈ L, ∀ c ∈ s.data, isOpChar c = false) :
    ∀ u ∈ partsOf (joinComma L), ∀ c ∈ u.data, isOpChar c = false := by
  intro u hu c hc
  unfold partsOf jsSplit at hu
  rw [List.mem_filter] at hu
  obtain ⟨hu1, _⟩ := hu
  rw [List.mem_map] at hu1
  obtain ⟨v, hv, hveq⟩ := hu1
  rw [List.mem_map] at hv
  obtain ⟨w, hw, hweq⟩ := hv
  subst hveq
  have hc3 : c ∈ v.data := trimChars_subset v.data c hc
  subst hweq
  have hc5 : c ∈ (joinComma L).data :=
    splitChars_subset ',' (joinComma L).data w hw c hc3
  rcases joinComma_chars L c hc5 with h1 | ⟨s, hs, hcs⟩
  · subst h1
    decide
  · exact h s hs c hcs

/-- Parsing the synthesized expression back: the macro-name fragments
contribute no overrides, and the diff tokens contribute theirs in
sorted order. -/
theorem parseOverrides_assemble (cd : CharacterData) (names tokens : List String)
    (hnames : ∀ n ∈ names, ∀ c ∈ n.data, isOpChar c = false)
    (hne : ∀ t ∈ tokens, t ≠ "")
    (hclean : ∀ t ∈ tokens, ∀ d ∈ t.data, charClean d = true) :
    parseOverrides cd (assembleExpression names tokens) =
      (sortStrings tokens).flatMap (ovOfPart cd) := by
  have hfrag : (partsOf (joinComma names)).flatMap (ovOfPart cd) = [] :=
    List.flatMap_eq_nil_iff.mpr (fun u hu =>
      ovOfPart_opfree cd u (partsOf_join_opfree names hnames u hu))
  by_cases h1 : tokens = []
  · subst h1
    have hassemble : assembleExpression names [] =
        (if joinComma names = "" then "Default" else joinComma names) := by
      unfold assembleExpression
      simp
    rw [hassemble]
    by_cases h2 : joinComma names = ""
    · rw [if_pos h2, parseOverrides_eq]
      rw [show partsOf "Default" = ["Default"] from rfl,
        show sortStrings ([] : List String) = [] from rfl]
      simp only [List.flatMap_cons, List.flatMap_nil, List.append_nil]
      exact ovOfPart_opfree cd "Default" (by decide)
    · rw [if_neg h2, parseOverrides_eq, hfrag]
      rfl
  · have hlen : 0 < tokens.length := List.length_pos.mpr h1
    have hsne : sortStrings tokens ≠ [] := by
      intro h
      have hl := (sortStrings_perm tokens).length_eq
      rw [h] at hl
      exact h1 (List.eq_nil_of_length_eq_zero hl.symm)
    have hstokne : ∀ t ∈ sortStrings tokens, t ≠ "" :=
      fun t ht => hne t ((sortStrings_perm tokens).mem_iff.mp ht)
    have hstokclean : ∀ t ∈ sortStrings tokens, ∀ d ∈ t.data, charClean d = true :=
      fun t ht => hclean t ((sortStrings_perm tokens).mem_iff.mp ht)
    have hjs : joinComma (sortStrings tokens) ≠ "" :=
      joinComma_ne_empty _ hsne hstokne
    have hparts : partsOf (joinComma (sortStrings tokens)) = sortStrings tokens :=
      partsOf_join_tokens _ hstokne hstokclean
    by_cases h2 : joinComma names = ""
    · have hassemble : assembleExpression names tokens = joinComma (sortStrings tokens) := by
        unfold assembleExpression
        simp only [gt_iff_lt, hlen, if_true]
        have he : (joinComma names ++ (if (joinComma names != "") = true then "," else ""))
            ++ joinComma (sortStrings tokens) = joinComma (sortStrings tokens) := by
          apply String.ext
          rw [h2]
          simp [String.data_append]
        rw [he, if_neg hjs]
      rw [hassemble, parseOverrides_eq, hparts]
    · have hbne : (joinComma names != "") = true := by
        simpa using h2
      have hassemble : assembleExpression names tokens =
          joinComma names ++ "," ++ joinComma (sortStrings tokens) := by
        unfold assembleExpression
        simp only [gt_iff_lt, hlen, if_true]
        have he : (joinComma names ++ (if (joinComma names != "") = true then "," else ""))
            ++ joinComma (sortStrings tokens)
            = joinComma names ++ "," ++ joinComma (sortStrings tokens) := by
          rw [if_pos hbne]
        rw [he, if_neg (append_comma_ne (joinComma names) (joinComma (sortStrings tokens)))]
      rw [hassemble, parseOverrides_eq, partsOf_append_comma, List.flatMap_append, hfrag,
        hparts]
      rfl

/-- Specializations of the token contribution, by operator. -/
theorem ovOfPart_clear (cd : CharacterData) (hkeys : keysOk cd = true)
    (g : String) (hgop : ∀ d ∈ g.data, isOpChar d = false) (hgne : g ≠ "")
    (t : String) (ht : t.data = g.data ++ '-' :: ("" : String).data) :
    ovOfPart cd t = (cd.layers.filter (fun l => l.group == g)).map
      (fun l => (l.id, false)) := by
  rw [ovOfPart_token cd hkeys g "" '-' hgop hgne (by decide) t ht, if_pos ⟨rfl, rfl⟩]

theorem ovOfPart_excl (cd : CharacterData) (hkeys : keysOk cd = true)
    (g n : String) (hgop : ∀ d ∈ g.data, isOpChar d = false) (hgne : g ≠ "")
    (t : String) (ht : t.data = g.data ++ '>' :: n.data) :
    ovOfPart cd t = (cd.layers.filter (fun l => l.group == g)).map
      (fun l => (l.id, l.name == n)) := by
  rw [ovOfPart_token cd hkeys g n '>' hgop hgne (by decide) t ht,
    if_neg (by rintro ⟨h, _⟩; exact absurd h (by decide)), if_pos rfl]

theorem ovOfPart_plus (cd : CharacterData) (hkeys : keysOk cd = true)
    (g n : String) (hgop : ∀ d ∈ g.data, isOpChar d = false) (hgne : g ≠ "")
    (t : String) (ht : t.data = g.data ++ '+' :: n.data) :
    ovOfPart cd t = [(mkId g n, true)] := by
  rw [ovOfPart_token cd hkeys g n '+' hgop hgne (by decide) t ht,
    if_neg (by rintro ⟨h, _⟩; exact absurd h (by decide)),
    if_neg (by decide), if_pos rfl]

theorem ovOfPart_minus (cd : CharacterData) (hkeys : keysOk cd = true)
    (g n : String) (hgop : ∀ d ∈ g.data, isOpChar d = false) (hgne : g ≠ "")
    (hn : n ≠ "") (t : String) (ht : t.data = g.data ++ '-' :: n.data) :
    ovOfPart cd t = [(mkId g n, false)] := by
  rw [ovOfPart_token cd hkeys g n '-' hgop hgne (by decide) t ht,
    if_neg (by rintro ⟨_, h⟩; exact hn h),
    if_neg (by decide), if_neg (by decide), if_pos rfl]

/-- Every override entry parsed back from an emitted token carries, at
each catalog id it mentions, exactly the final value of that id. -/
theorem token_write_correct (cd : CharacterData) (hcat : catalogOk cd = true)
    (hkeys : keysOk cd = true) (current st0 : LayerState) (g : String)
    (l0 : LayerInfo) (hl0 : l0 ∈ cd.layers) (hl0g : l0.group = g)
    (t : String) (ht : t ∈ groupTokens cd current st0 g)
    (k : String) (b : Bool) (hkb : (k, b) ∈ ovOfPart cd t)
    (l : LayerInfo) (hl : l ∈ cd.layers) (hk : k = l.id) :
    b = current l.id := by
  have hcg := catalogOk_layer cd hcat l0 hl0
  have hgne : g ≠ "" := by rw [← hl0g]; exact hcg.2.1
  have hgop : ∀ d ∈ g.data, isOpChar d = false := by
    rw [← hl0g]
    exact fun d hd => (hcg.2.2.2.1 d hd).1
  rcases groupTokens_cases cd current st0 g t ht with ⟨hfil, hteq⟩ | ⟨L, hfil, hteq⟩ |
    ⟨a, c2, rest, hfil, l3, hl3, hcond3, hteq⟩
  · -- clear-group token g-
    subst hteq
    rw [ovOfPart_clear cd hkeys g hgop hgne _ (by simp [String.data_append])] at hkb
    rw [List.mem_map] at hkb
    obtain ⟨l2, hl2f, hl2eq⟩ := hkb
    obtain ⟨hl2, hl2g⟩ := List.mem_filter.mp hl2f
    have hl2g2 : l2.group = g := by simpa using hl2g
    have hbeq : b = false := by simpa using congrArg Prod.snd hl2eq
    have hkeq : l2.id = k := by simpa using congrArg Prod.fst hl2eq
    have hll2 : l2 = l := catalogOk_inj cd hcat l2 l hl2 hl (by rw [hkeq, hk])
    have hlg : l.group = g := by rw [← hll2]; exact hl2g2
    have hnot := (List.filter_eq_nil_iff.mp hfil) l hl
    have hcur : current l.id = false := by
      by_contra hc
      rw [Bool.not_eq_false] at hc
      exact hnot (by simp [hlg, hc])
    rw [hbeq, hcur]
  · -- exclusive token g>name
    subst hteq
    have hLf : L ∈ cd.layers.filter (fun x => x.group == g && current x.id) := by
      rw [hfil]
      simp
    obtain ⟨hLmem, hLcond⟩ := List.mem_filter.mp hLf
    rw [Bool.and_eq_true] at hLcond
    have hLg : L.group = g := by simpa using hLcond.1
    have hLcur : current L.id = true := hLcond.2
    have hcL := catalogOk_layer cd hcat L hLmem
    rw [ovOfPart_excl cd hkeys L.group L.name
      (fun d hd => (hcL.2.2.2.1 d hd).1) hcL.2.1 _
      (token_data L.group ">" L.name '>' rfl)] at hkb
    rw [List.mem_map] at hkb
    obtain ⟨l2, hl2f, hl2eq⟩ := hkb
    obtain ⟨hl2, hl2g⟩ := List.mem_filter.mp hl2f
    have hl2g2 : l2.group = L.group := by simpa using hl2g
    have hkeq : l2.id = k := by simpa using congrArg Prod.fst hl2eq
    have hbeq : b = (l2.name == L.name) := by simpa using (congrArg Prod.snd hl2eq).symm
    have hll2 : l2 = l := catalogOk_inj cd hcat l2 l hl2 hl (by rw [hkeq, hk])
    have hlg : l.group = L.group := by rw [← hll2]; exact hl2g2
    by_cases hname : l.name = L.name
    · have hidl : l.id = mkId l.group l.name := (catalogOk_layer cd hcat l hl).1
      have hidL : L.id = mkId L.group L.name := hcL.1
      have hidseq : l.id = L.id := by rw [hidl, hidL, hlg, hname]
      have hlL : l = L := catalogOk_inj cd hcat l L hl hLmem hidseq
      rw [hbeq, hll2, hlL]
      simp [hLcur]
    · have hne2 : (l.name == L.name) = false := by simp [hname]
      have hcur : current l.id = false := by
        by_contra hc
        rw [Bool.not_eq_false] at hc
        have hmem2 : l ∈ cd.layers.filter (fun x => x.group == g && current x.id) := by
          rw [List.mem_filter]
          exact ⟨hl, by simp [hlg.trans hLg, hc]⟩
        rw [hfil] at hmem2
        simp only [List.mem_singleton] at hmem2
        exact hname (by rw [hmem2])
      rw [hbeq, hll2, hne2, hcur]
  · -- per-layer token
    subst hteq
    rw [Bool.and_eq_true] at hcond3
    have hc3 := catalogOk_layer cd hcat l3 hl3
    by_cases hcur3 : current l3.id = true
    · rw [if_pos hcur3] at hkb
      rw [ovOfPart_plus cd hkeys l3.group l3.name
        (fun d hd => (hc3.2.2.2.1 d hd).1) hc3.2.1 _
        (token_data l3.group "+" l3.name '+' rfl)] at hkb
      simp only [List.mem_singleton] at hkb
      have hkeq : k = mkId l3.group l3.name := by simpa using congrArg Prod.fst hkb
      have hbeq : b = true := by simpa using congrArg Prod.snd hkb
      have hids : l.id = l3.id := by rw [← hk, hkeq, hc3.1]
      have hll3 : l = l3 := catalogOk_inj cd hcat l l3 hl hl3 hids
      rw [hbeq, hll3, hcur3]
    · rw [if_neg hcur3] at hkb
      rw [ovOfPart_minus cd hkeys l3.group l3.name
        (fun d hd => (hc3.2.2.2.1 d hd).1) hc3.2.1 hc3.2.2.1 _
        (token_data l3.group "-" l3.name '-' rfl)] at hkb
      simp only [List.mem_singleton] at hkb
      have hkeq : k = mkId l3.group l3.name := by simpa using congrArg Prod.fst hkb
      have hbeq : b = false := by simpa using congrArg Prod.snd hkb
      have hids : l.id = l3.id := by rw [← hk, hkeq, hc3.1]
      have hll3 : l = l3 := catalogOk_inj cd hcat l l3 hl hl3 hids
      rw [hbeq, hll3]
      exact (Bool.not_eq_true _).mp hcur3 |>.symm

/-- Every catalog layer whose final and preset-only values differ gets an
override entry from some emitted token. -/
theorem token_coverage (cd : CharacterData) (hcat : catalogOk cd = true)
    (hkeys : keysOk cd = true) (current st0 : LayerState)
    (l : LayerInfo) (hl : l ∈ cd.layers) (hdiff : ¬ current l.id = st0 l.id) :
    ∃ t ∈ overrideExpressions cd current st0, ∃ b, (l.id, b) ∈ ovOfPart cd t := by
  have hcl := catalogOk_layer cd hcat l hl
  have hreq : hasRequired cd current st0 l.id = true := by
    unfold hasRequired
    rw [Bool.and_eq_true]
    refine ⟨bne_iff_ne.mpr hdiff, ?_⟩
    rw [Option.isSome_iff_exists]
    exact ⟨l, findLayer_self cd hcat l hl⟩
  have hgrp : l.group ∈ overriddenGroups cd current st0 := by
    rw [mem_overriddenGroups]
    exact ⟨l, hl, by simp [findLayer_self cd hcat l hl, hreq], rfl⟩
  rcases hfil : cd.layers.filter (fun x => x.group == l.group && current x.id)
    with _ | ⟨a, rest⟩
  · refine ⟨l.group ++ "-", ?_, false, ?_⟩
    · unfold overrideExpressions
      rw [List.mem_flatMap]
      refine ⟨l.group, hgrp, ?_⟩
      unfold groupTokens
      rw [hfil]
      simp
    · rw [ovOfPart_clear cd hkeys l.group (fun d hd => (hcl.2.2.2.1 d hd).1) hcl.2.1 _
        (by simp [String.data_append])]
      rw [List.mem_map]
      exact ⟨l, by rw [List.mem_filter]; exact ⟨hl, by simp⟩, rfl⟩
  · rcases rest with _ | ⟨c2, rest2⟩
    · have haf : a ∈ cd.layers.filter (fun x => x.group == l.group && current x.id) := by
        rw [hfil]
        simp
      obtain ⟨hamem, hacond⟩ := List.mem_filter.mp haf
      have hca := catalogOk_layer cd hcat a hamem
      rw [Bool.and_eq_true] at hacond
      have hag : a.group = l.group := by simpa using hacond.1
      refine ⟨a.group ++ ">" ++ a.name, ?_, (l.name == a.name), ?_⟩
      · unfold overrideExpressions
        rw [List.mem_flatMap]
        refine ⟨l.group, hgrp, ?_⟩
        unfold groupTokens
        rw [hfil]
        simp
      · rw [ovOfPart_excl cd hkeys a.group a.name (fun d hd => (hca.2.2.2.1 d hd).1)
          hca.2.1 _ (token_data a.group ">" a.name '>' rfl)]
        rw [List.mem_map]
        exact ⟨l, by rw [List.mem_filter]; exact ⟨hl, by simp [hag]⟩, rfl⟩
    · refine ⟨l.group ++ (if current l.id then "+" else "-") ++ l.name, ?_, ?_⟩
      · unfold overrideExpressions
        rw [List.mem_flatMap]
        refine ⟨l.group, hgrp, ?_⟩
        unfold groupTokens
        rw [hfil]
        refine List.mem_map.mpr ⟨l, ?_, rfl⟩
        rw [List.mem_filter]
        exact ⟨hl, by simp [hreq]⟩
      · by_cases hcur : current l.id = true
        · refine ⟨true, ?_⟩
          rw [if_pos hcur, ovOfPart_plus cd hkeys l.group l.name
            (fun d hd => (hcl.2.2.2.1 d hd).1) hcl.2.1 _
            (token_data l.group "+" l.name '+' rfl)]
          simp [hcl.1]
        · refine ⟨false, ?_⟩
          rw [if_neg hcur, ovOfPart_minus cd hkeys l.group l.name
            (fun d hd => (hcl.2.2.2.1 d hd).1) hcl.2.1 hcl.2.2.1 _
            (token_data l.group "-" l.name '-' rfl)]
          simp [hcl.1]

/-- C1 (amended): round trip.  For every reachable pair of a final
activation map and a chosen active-macro-name list — reachable meaning
producible by resolution from the loaded catalog, registry, baseline,
registry-key macro names and some manual overrides — resolving with the
same catalog, baseline and active macro names, using as manual overrides
the result of parsing the expression text synthesized from that pair,
yields an activation map equal to the final map restricted to catalog
layer ids; provided the catalog is well-formed (ids are group/name and
pairwise distinct, group names non-empty and operator-free, group and
layer names non-empty without commas or whitespace) and no registry key
contains an operator character (so no macro name collides with a
synthesized diff token). -/
theorem round_trip (cd : CharacterData) (fuel : Nat) (names : List String)
    (ov : List (String × Bool)) (st0 finalMap : LayerState)
    (hcat : catalogOk cd = true) (hkeys : keysOk cd = true)
    (hnames : ∀ n ∈ names, (lookupComp cd n).isSome = true)
    (hpre : presetStates cd fuel names = some st0)
    (_hfin : finalMap = applyOverrides ov st0) :
    (roundTrip cd fuel names finalMap).isSome = true ∧
    ∀ l ∈ cd.layers, evalState (roundTrip cd fuel names finalMap) l.id
      = some (finalMap l.id) := by
  have hnof : ∀ n ∈ names, ∀ c ∈ n.data, isOpChar c = false := by
    intro n hn c hc
    have hs := hnames n hn
    rw [Option.isSome_iff_exists] at hs
    obtain ⟨parts, hparts⟩ := hs
    by_contra hop
    rw [Bool.not_eq_false] at hop
    rw [lookupComp_none_of_op cd hkeys n c hc hop] at hparts
    exact Option.noConfusion hparts
  have hne := overrideExpressions_ne_empty cd finalMap st0
  have hclean := overrideExpressions_clean cd hcat finalMap st0
  have hgen : generateExpression cd fuel names finalMap =
      some (assembleExpression names (overrideExpressions cd finalMap st0)) := by
    unfold generateExpression
    rw [hpre, Option.map_some']
  have hpo := parseOverrides_assemble cd names (overrideExpressions cd finalMap st0)
    hnof hne hclean
  have hrt : roundTrip cd fuel names finalMap =
      some (applyOverrides
        ((sortStrings (overrideExpressions cd finalMap st0)).flatMap (ovOfPart cd))
        st0) := by
    unfold roundTrip
    rw [hgen]
    show calculateLayerStates cd fuel names
      (parseOverrides cd (assembleExpression names (overrideExpressions cd finalMap st0)))
      = _
    unfold calculateLayerStates
    rw [hpo, hpre, Option.map_some']
  refine ⟨by rw [hrt]; rfl, ?_⟩
  intro l hl
  rw [hrt]
  show some (applyOverrides
      ((sortStrings (overrideExpressions cd finalMap st0)).flatMap (ovOfPart cd))
      st0 l.id) = some (finalMap l.id)
  congr 1
  have hW : ∀ e ∈ (sortStrings (overrideExpressions cd finalMap st0)).flatMap
      (ovOfPart cd), e.1 = l.id → e.2 = finalMap l.id := by
    intro e he hk
    rw [List.mem_flatMap] at he
    obtain ⟨t, ht, hkb⟩ := he
    have ht2 : t ∈ overrideExpressions cd finalMap st0 :=
      (sortStrings_perm _).mem_iff.mp ht
    unfold overrideExpressions at ht2
    rw [List.mem_flatMap] at ht2
    obtain ⟨g, hg, hgt⟩ := ht2
    rw [mem_overriddenGroups] at hg
    obtain ⟨l0, hl0, _, hl0g⟩ := hg
    exact token_write_correct cd hcat hkeys finalMap st0 g l0 hl0 hl0g t hgt
      e.1 e.2 (by rw [Prod.mk.eta]; exact hkb) l hl hk
  rw [applyOverrides_eval]
  cases hfind : ((sortStrings (overrideExpressions cd finalMap st0)).flatMap
      (ovOfPart cd)).reverse.find? (fun e => e.1 == l.id) with
  | some e =>
    have hmem : e ∈ (sortStrings (overrideExpressions cd finalMap st0)).flatMap
        (ovOfPart cd) := by
      have := List.mem_of_find?_eq_some hfind
      simpa using this
    have hke : e.1 = l.id := by simpa using List.find?_some hfind
    show e.2 = finalMap l.id
    exact hW e hmem hke
  | none =>
    show st0 l.id = finalMap l.id
    by_contra hdiff
    have hdiff2 : ¬ finalMap l.id = st0 l.id := fun h => hdiff h.symm
    obtain ⟨t, ht, b, hb⟩ :=
      token_coverage cd hcat hkeys finalMap st0 l hl hdiff2
    have hmem : (l.id, b) ∈ (sortStrings (overrideExpressions cd finalMap st0)).flatMap
        (ovOfPart cd) := by
      rw [List.mem_flatMap]
      exact ⟨t, (sortStrings_perm _).mem_iff.mpr ht, hb⟩
    have hs : (((sortStrings (overrideExpressions cd finalMap st0)).flatMap
        (ovOfPart cd)).reverse.find? (fun e => e.1 == l.id)).isSome := by
      rw [List.find?_isSome]
      exact ⟨(l.id, b), by simpa using hmem, by simp⟩
    rw [hfind] at hs
    simp at hs

/-- Witness for C1 (amended) at the spec's Example C data: the
synthesized expression Smile,Mouth+Frown resolves back to the final map
on the catalog ids. -/
theorem round_trip_witness :
    (roundTrip cdB 1 ["Smile"] finalB).isSome = true ∧
    evalState (roundTrip cdB 1 ["Smile"] finalB) "Mouth/Frown"
      = some (finalB "Mouth/Frown") ∧
    evalState (roundTrip cdB 1 ["Smile"] finalB) "Mouth/Grin"
      = some (finalB "Mouth/Grin") := by
  have h := round_trip cdB 1 ["Smile"] [("Mouth/Frown", true)] stB finalB
    (by decide) (by decide) (by decide) rfl rfl
  exact ⟨h.1, h.2 ⟨"Mouth", "Frown", "Mouth/Frown"⟩ (by decide),
    h.2 ⟨"Mouth", "Grin", "Mouth/Grin"⟩ (by decide)⟩

/-- Registry whose key collides with a synthesized diff token. -/
def cdX : CharacterData :=
  ⟨[⟨"Eyes", "Open", "Eyes/Open"⟩, ⟨"Eyes", "Closed", "Eyes/Closed"⟩],
   [("Eyes>Closed", ["Eyes+Open"])], ⟨[], []⟩⟩

/-- The reachable final map of the C1 counterexample: Eyes/Closed turned
on by a manual override over an empty preset state. -/
def finalX : LayerState :=
  applyOverrides [("Eyes/Closed", true)] ((presetStates cdX 1 []).getD emptyState)

/-- C1 counterexample: with a registry key named Eyes>Closed, the
synthesized override token for the reachable final map is that very
key, so re-parsing classifies it as a macro name, no manual override is
produced, and resolving with the same (empty) active-macro-name list
loses the Eyes/Closed activation: the round trip fails on the claim as
stated. -/
theorem round_trip_cex :
    calculateLayerStates cdX 1 [] [("Eyes/Closed", true)] = some finalX ∧
    generateExpression cdX 1 [] finalX = some "Eyes>Closed" ∧
    parseOverrides cdX "Eyes>Closed" = [] ∧
    evalState (roundTrip cdX 1 [] finalX) "Eyes/Closed" = some false ∧
    finalX "Eyes/Closed" = true :=
  ⟨rfl, by decide, by decide, by decide, by decide⟩
